import Mathlib

/-!
Verification of the CBForest `DocEnumerator` (src/CBForest/DocEnumerator.cc).

The enumerator code is translated definition-by-definition from the source.
The underlying forestdb store and its iterator API are external collaborators
(not part of the repository sources); they are modelled from the spec's
external-interface section (§6): a store is a finite list of documents, an
iterator is the in-range sublist together with a cursor position.
-/

/-- Status codes of the underlying store, as used by the enumerator:
success, key-not-found, iterator-exhausted, and a catch-all for every other
store-level failure code. -/
inductive FdbStatus where
  | success
  | keyNotFound
  | iteratorFail
  | other (code : Nat)
deriving DecidableEq

/-- Modelled from the spec: a stored document. `key` and bodies are byte
sequences (bytes as `Nat` values < 256), `seq` is the sequence number,
`deleted` marks a tombstone. -/
structure Doc where
  key : List Nat
  seq : Nat
  deleted : Bool
  meta : List Nat
  body : List Nat
deriving DecidableEq

def dummyDoc : Doc := { key := [], seq := 0, deleted := false, meta := [], body := [] }

/-- Modelled from the spec: fetch granularity. A metadata-only fetch returns
the document without its body (`contentOptions` & `kMetaOnly`). -/
def fetchDoc (metaOnly : Bool) (d : Doc) : Doc :=
  if metaOnly then { d with body := [] } else d

/-- Modelled from the spec: the store's native key comparison —
memcmp-style lexicographic byte order, a proper prefix sorting first. -/
def ltKey : List Nat → List Nat → Bool
  | [], [] => false
  | [], _ :: _ => true
  | _ :: _, [] => false
  | a :: as, b :: bs => if a < b then true else if b < a then false else ltKey as bs

def leKey (a b : List Nat) : Bool := !ltKey b a

/-- `FDB_MAX_KEYLEN`, the store's key-length ceiling. -/
def FDB_MAX_KEYLEN : Nat := 65408

/-- `UINT_MAX`, the unsigned sentinel used for "no limit". -/
def UINT_MAX : Nat := 4294967295

/-- Modulus of the store's 64-bit sequence numbers. -/
def SEQ_MOD : Nat := 18446744073709551616

/-- The carry loop of `nextKey`, acting on the reversed byte list: a byte
0xFF overflows to 0 and the key is shortened by one (the source decrements
`key.size`), otherwise the byte is incremented and the loop stops. -/
def incAux : List Nat → List Nat
  | [] => []
  | b :: rest => if b = 255 then incAux rest else (b + 1) :: rest

/-- `nextKey` (DocEnumerator.cc lines 54-68): successor transform for an
exclusive minimum bound. A key shorter than the ceiling gets a 0 byte
appended; a full-length key has its last byte incremented with carry
propagation leftward. -/
def nextKey (maxLen : Nat) (key : List Nat) : List Nat :=
  if key.length < maxLen then key ++ [0]
  else (incAux key.reverse).reverse

/-- The borrow loop of `prevKey`, acting on the reversed byte list: a byte
0 underflows to 0xFF and the borrow continues leftward, otherwise the byte
is decremented and the loop stops. -/
def decAux : List Nat → List Nat
  | [] => []
  | b :: rest => if b = 0 then 255 :: decAux rest else (b - 1) :: rest

/-- `prevKey` (DocEnumerator.cc lines 70-82): predecessor transform for an
exclusive maximum bound. The last byte is decremented with borrow
propagation leftward, then the buffer is padded with 0xFF bytes up to the
key-length ceiling. -/
def prevKey (maxLen : Nat) (key : List Nat) : List Nat :=
  (decAux key.reverse).reverse ++ List.replicate (maxLen - key.length) 255


/-- `DocEnumerator::Options` (DocEnumerator.cc lines 34-42). `metaOnly`
models `contentOptions & kMetaOnly`. -/
structure Options where
  skip : Nat
  limit : Nat
  descending : Bool
  inclusiveStart : Bool
  inclusiveEnd : Bool
  includeDeleted : Bool
  metaOnly : Bool
deriving DecidableEq

/-- `Options::kDefault`. -/
def kDefault : Options :=
  { skip := 0, limit := UINT_MAX, descending := false, inclusiveStart := true,
    inclusiveEnd := true, includeDeleted := false, metaOnly := false }

/-- Modelled from the spec: an open range cursor of the underlying store —
the in-range documents, in store order, plus the current position. -/
structure FdbIterator where
  docs : List Doc
  pos : Nat
deriving DecidableEq

/-- Modelled from the spec: whether a document falls inside concrete
inclusive min/max key bounds (`none` = unbounded side) and passes the
deleted-document visibility option. -/
def docMatches (o : Options) (minKey maxKey : Option (List Nat)) (d : Doc) : Bool :=
  (match minKey with | none => true | some m => leKey m d.key) &&
  (match maxKey with | none => true | some m => leKey d.key m) &&
  (o.includeDeleted || !d.deleted)

/-- Modelled from the spec: `fdb_iterator_init` — open a range cursor over
the documents within inclusive key bounds, positioned at the first match. -/
def fdb_iterator_init (store : List Doc) (minKey maxKey : Option (List Nat))
    (o : Options) : FdbIterator :=
  { docs := store.filter (docMatches o minKey maxKey), pos := 0 }

/-- Modelled from the spec: `fdb_iterator_sequence_init` — open a range
cursor over the documents within inclusive sequence bounds. -/
def fdb_iterator_sequence_init (store : List Doc) (minSeq maxSeq : Nat)
    (o : Options) : FdbIterator :=
  { docs := store.filter (fun d =>
      decide (minSeq ≤ d.seq) && decide (d.seq ≤ maxSeq) && (o.includeDeleted || !d.deleted)),
    pos := 0 }

/-- Modelled from the spec: advance the cursor forward; reports exhausted
distinctly when no further entry exists. -/
def fdb_iterator_next (it : FdbIterator) : FdbStatus × FdbIterator :=
  if it.pos + 1 < it.docs.length then (.success, { it with pos := it.pos + 1 })
  else (.iteratorFail, it)

/-- Modelled from the spec: advance the cursor backward. -/
def fdb_iterator_prev (it : FdbIterator) : FdbStatus × FdbIterator :=
  if 0 < it.pos then (.success, { it with pos := it.pos - 1 })
  else (.iteratorFail, it)

/-- Modelled from the spec: `fdb_iterator_seek_to_max` — position at the
last in-range document; fails if the range is empty. -/
def fdb_iterator_seek_to_max (it : FdbIterator) : FdbStatus × FdbIterator :=
  if 0 < it.docs.length then (.success, { it with pos := it.docs.length - 1 })
  else (.iteratorFail, it)

/-- Index of the first document satisfying a predicate. -/
def findFirstIdx (p : Doc → Bool) : List Doc → Option Nat
  | [] => none
  | d :: rest => if p d then some 0 else (findFirstIdx p rest).map (· + 1)

/-- Modelled from the spec: the position a seek lands on — the first
position at-or-after the key (`lower = false`, `FDB_ITR_SEEK_HIGHER`) or
the last position at-or-before it (`lower = true`, `FDB_ITR_SEEK_LOWER`). -/
def seekPos (docs : List Doc) (key : List Nat) : Bool → Option Nat
  | true =>
    match findFirstIdx (fun d => leKey d.key key) docs.reverse with
    | some j => some (docs.length - 1 - j)
    | none => none
  | false => findFirstIdx (fun d => leKey key d.key) docs

/-- Modelled from the spec: `fdb_iterator_seek`; reports not-found
distinctly. -/
def fdb_iterator_seek (it : FdbIterator) (key : List Nat) (lower : Bool) :
    FdbStatus × FdbIterator :=
  match seekPos it.docs key lower with
  | some i => (.success, { it with pos := i })
  | none => (.iteratorFail, it)

/-- Modelled from the spec: fetch the document at the cursor's position
(metadata-only or full); exhausted when the position is out of range. -/
def iterator_get (metaOnly : Bool) (it : FdbIterator) : FdbStatus × Option Doc :=
  match it.docs.get? it.pos with
  | some d => (.success, some (fetchDoc metaOnly d))
  | none => (.iteratorFail, none)

/-- Modelled from the spec: `fdb_get`/`fdb_get_metaonly` — exact-key
lookup, reporting key-not-found distinctly when the key is absent. -/
def fdb_get (store : List Doc) (metaOnly : Bool) (docID : List Nat) :
    FdbStatus × Option Doc :=
  match store.find? (fun d => d.key == docID) with
  | some d => (.success, some (fetchDoc metaOnly d))
  | none => (.keyNotFound, none)

/-- The `DocEnumerator` state: an optional underlying cursor, the options
(whose `skip`/`limit` are mutated during iteration), the ID list with its
index for list mode, the held document `_docP`, and the `_skipStep` flag. -/
structure DocEnumerator where
  iterator : Option FdbIterator
  options : Options
  docIDs : List (List Nat)
  curDocIndex : Nat
  doc : Option Doc
  skipStep : Bool
deriving DecidableEq

/-- `DocEnumerator::close` (lines 242-249): free the held document and
close the underlying cursor if present. -/
def closeEnum (e : DocEnumerator) : DocEnumerator :=
  { e with doc := none, iterator := none }

/-- The post-decrement `_options.limit--` on the unsigned limit counter. -/
def decLimit (l : Nat) : Nat := (l + UINT_MAX) % (UINT_MAX + 1)

/-- Result of the skip loop inside `next`: either positioned with skip
exhausted, or the underlying cursor ran out with some skip left over. -/
inductive SkipResult where
  | done (it : FdbIterator)
  | fail (skipLeft : Nat)
deriving DecidableEq

/-- One cursor move of `next` (lines 268-269): backward when descending,
forward otherwise. -/
def moveIterator (dsc : Bool) (it : FdbIterator) : FdbStatus × FdbIterator :=
  if dsc then fdb_iterator_prev it else fdb_iterator_next it

/-- The moving iterations of the do/while loop in `DocEnumerator::next`
(lines 263-278): move the cursor, turning `FDB_RESULT_ITERATOR_FAIL` into
an early exit (with the skip counter as it stood) and raising any other
failure; repeat while `_options.skip` is positive, decrementing it. -/
def moveLoop (dsc : Bool) : FdbIterator → Nat → Except FdbStatus SkipResult
  | it, skip =>
    match moveIterator dsc it with
    | (.success, it2) =>
      match skip with
      | 0 => .ok (.done it2)
      | s + 1 => moveLoop dsc it2 s
    | (.iteratorFail, _) => .ok (.fail skip)
    | (st, _) => .error st

/-- The whole do/while skip loop of `next`: the first iteration consumes
`_skipStep` without moving the cursor; when skip is already exhausted the
loop then ends, otherwise skip is decremented and the moving iterations
run; without `_skipStep` every iteration moves. -/
def skipLoop (dsc : Bool) (it : FdbIterator) (ss : Bool) (skip : Nat) :
    Except FdbStatus SkipResult :=
  if ss then
    match skip with
    | 0 => .ok (.done it)
    | s + 1 => moveLoop dsc it s
  else moveLoop dsc it skip

/-- `DocEnumerator::getDoc` (lines 320-334): fetch the document at the
current position; exhausted closes the enumerator, any other failure is
raised. -/
def getDoc (e : DocEnumerator) (it : FdbIterator) : Except FdbStatus (DocEnumerator × Bool) :=
  match iterator_get e.options.metaOnly it with
  | (.success, od) => .ok ({ e with doc := od }, true)
  | (.iteratorFail, _) => .ok (closeEnum { e with doc := none }, false)
  | (st, _) => .error st

/-- The placeholder document `fdb_doc_create` builds for a list-mode ID
(line 291): it carries only that ID. -/
def placeholderDoc (docID : List Nat) : Doc :=
  { key := docID, seq := 0, deleted := false, meta := [], body := [] }

/-- `DocEnumerator::nextFromArray` (lines 283-301), with the exact-key
fetch abstracted as a parameter: at the end of the ID list, close and
report end; otherwise create the placeholder for the current ID, advance
the index, fetch by exact key, tolerate `FDB_RESULT_KEY_NOT_FOUND`
(keeping the placeholder), raise any status other than success or
key-not-found, and return true. -/
def nextFromArrayCore (fetch : List Nat → FdbStatus × Option Doc)
    (e : DocEnumerator) : Except FdbStatus (DocEnumerator × Bool) :=
  if e.curDocIndex < e.docIDs.length then
    let docID := e.docIDs.getD e.curDocIndex []
    let e2 := { e with curDocIndex := e.curDocIndex + 1, doc := some (placeholderDoc docID) }
    match fetch docID with
    | (st, od) =>
      if st = .keyNotFound then .ok (e2, true)
      else if st = .success then .ok ({ e2 with doc := od }, true)
      else .error st
  else .ok (closeEnum e, false)

/-- `nextFromArray` with the store's exact-key lookup plugged in. -/
def nextFromArray (store : List Doc) (e : DocEnumerator) :
    Except FdbStatus (DocEnumerator × Bool) :=
  nextFromArrayCore (fdb_get store e.options.metaOnly) e

/-- `DocEnumerator::next` (lines 252-280): list mode delegates to
`nextFromArray`; a missing cursor reports end; an exhausted limit
(post-decrement) closes and reports end; otherwise the skip loop runs and
the document at the final position is fetched. -/
def next (store : List Doc) (e : DocEnumerator) : Except FdbStatus (DocEnumerator × Bool) :=
  if 0 < e.docIDs.length then nextFromArray store e
  else
    match e.iterator with
    | none => .ok (e, false)
    | some it =>
      if e.options.limit = 0 then
        .ok (closeEnum { e with options := { e.options with limit := decLimit e.options.limit } }, false)
      else
        let e1 : DocEnumerator :=
          { e with options := { e.options with limit := decLimit e.options.limit } }
        match skipLoop e1.options.descending it e1.skipStep e1.options.skip with
        | .error st => .error st
        | .ok (.fail k) =>
          .ok (closeEnum { e1 with options := { e1.options with skip := k }, skipStep := false }, false)
        | .ok (.done it2) =>
          getDoc { e1 with iterator := some it2,
                           options := { e1.options with skip := 0 }, skipStep := false } it2

/-- `DocEnumerator::seek` (lines 303-318): a no-op without a cursor;
otherwise free the held document and reposition (at-or-before the target
when descending, at-or-after otherwise); a failed seek closes the
enumerator, a successful one sets `_skipStep` so the next `next()` call
does not move past the seek result. -/
def seekE (key : List Nat) (e : DocEnumerator) : DocEnumerator :=
  match e.iterator with
  | none => e
  | some it =>
    let e1 : DocEnumerator := { e with doc := none }
    match fdb_iterator_seek it key e.options.descending with
    | (.iteratorFail, it2) => closeEnum { e1 with iterator := some it2 }
    | (_, it2) => { e1 with iterator := some it2, skipStep := true }

/-- `DocEnumerator::initialPosition` (lines 169-174): a descending
enumerator seeks to the maximum right after opening, ignoring failure. -/
def initialPosition (e : DocEnumerator) : DocEnumerator :=
  if e.options.descending then
    match e.iterator with
    | some it => { e with iterator := some (fdb_iterator_seek_to_max it).2 }
    | none => e
  else e

/-- The bound computation of the key-range constructor (lines 101-125):
a zero-length start or end key is nulled first; descending swaps bounds
and inclusivity flags; an exclusive minimum is replaced by its successor
key and an exclusive maximum by its predecessor key. -/
def keyBounds (maxLen : Nat) (startKey endKey : List Nat) (o : Options) :
    Option (List Nat) × Option (List Nat) :=
  let startS : Option (List Nat) := if startKey.length = 0 then none else some startKey
  let endS : Option (List Nat) := if endKey.length = 0 then none else some endKey
  let minS := if o.descending then endS else startS
  let maxS := if o.descending then startS else endS
  let inclusiveMin := if o.descending then o.inclusiveEnd else o.inclusiveStart
  let inclusiveMax := if o.descending then o.inclusiveStart else o.inclusiveEnd
  let minS := if inclusiveMin then minS else some (nextKey maxLen (minS.getD []))
  let maxS := if inclusiveMax then maxS else some (prevKey maxLen (maxS.getD []))
  (minS, maxS)

/-- The key-range constructor (lines 86-135). -/
def mkKeyRange (maxLen : Nat) (store : List Doc) (startKey endKey : List Nat)
    (o : Options) : DocEnumerator :=
  let b := keyBounds maxLen startKey endKey o
  initialPosition
    { iterator := some (fdb_iterator_init store b.1 b.2 o), options := o,
      docIDs := [], curDocIndex := 0, doc := none, skipStep := true }

/-- The bound computation of the sequence-range constructor (lines
150-159): descending swaps bounds and flags; an exclusive minimum adds
one and an exclusive maximum subtracts one, in 64-bit arithmetic. -/
def seqBounds (start end_ : Nat) (o : Options) : Nat × Nat :=
  let minSeq := if o.descending then end_ else start
  let maxSeq := if o.descending then start else end_
  let inclusiveMin := if o.descending then o.inclusiveEnd else o.inclusiveStart
  let inclusiveMax := if o.descending then o.inclusiveStart else o.inclusiveEnd
  let minSeq := if inclusiveMin then minSeq else (minSeq + 1) % SEQ_MOD
  let maxSeq := if inclusiveMax then maxSeq else (maxSeq + (SEQ_MOD - 1)) % SEQ_MOD
  (minSeq, maxSeq)

/-- The sequence-range constructor (lines 138-167): when the normalized
minimum exceeds the maximum, no underlying cursor is opened. -/
def mkSeqRange (store : List Doc) (start end_ : Nat) (o : Options) : DocEnumerator :=
  let b := seqBounds start end_ o
  if b.1 > b.2 then
    { iterator := none, options := o, docIDs := [], curDocIndex := 0,
      doc := none, skipStep := true }
  else
    initialPosition
      { iterator := some (fdb_iterator_sequence_init store b.1 b.2 o), options := o,
        docIDs := [], curDocIndex := 0, doc := none, skipStep := true }

/-- The key-array constructor (lines 177-196): discard `skip` leading IDs,
truncate to `limit` when shorter, reverse when descending; no underlying
cursor is created. -/
def mkArrayEnum (docIDs : List (List Nat)) (o : Options) : DocEnumerator :=
  let ids := if 0 < o.skip then docIDs.drop o.skip else docIDs
  let ids := if o.limit < ids.length then ids.take o.limit else ids
  let ids := if o.descending then ids.reverse else ids
  { iterator := none, options := o, docIDs := ids, curDocIndex := 0,
    doc := none, skipStep := true }

/-- A range-mode enumerator state over cursor documents `D` at position
`p`; the shape every range construction and iteration step produces. -/
def rangeState (D : List Doc) (o : Options) (p : Nat) (ss : Bool) (d : Option Doc) :
    DocEnumerator :=
  { iterator := some { docs := D, pos := p }, options := o, docIDs := [],
    curDocIndex := 0, doc := d, skipStep := ss }

/-- The documents yielded by repeatedly calling `next` (up to `fuel`
calls), stopping at the first end-of-sequence or failure. -/
def enumAll (store : List Doc) : DocEnumerator → Nat → List Doc
  | _, 0 => []
  | e, fuel + 1 =>
    match next store e with
    | .ok (e2, true) =>
      match e2.doc with
      | some d => d :: enumAll store e2 fuel
      | none => []
    | _ => []

/-- The held document after one successful `next` call, if any. -/
def nextDoc (store : List Doc) (e : DocEnumerator) : Option Doc :=
  match next store e with
  | .ok (e2, true) => e2.doc
  | _ => none

/-- What a list-mode step holds for an ID: the exact-lookup result on
success, the placeholder otherwise. -/
def arrayFetch (store : List Doc) (metaOnly : Bool) (docID : List Nat) : Doc :=
  match fdb_get store metaOnly docID with
  | (.success, some d) => d
  | _ => placeholderDoc docID

/-- Resource view of an enumerator for the lifecycle operations: the owned
underlying cursor handle and the owned document buffer, by identity. -/
structure EnumHandles where
  iterator : Option Nat
  docP : Option Nat
deriving DecidableEq

/-- An underlying resource operation performed by the enumerator. -/
inductive ResOp where
  | freeDocOp (d : Nat)
  | closeIteratorOp (h : Nat)
deriving DecidableEq

/-- `DocEnumerator::close` (lines 242-249) as a trace of resource
operations: free the held document if present, then close the cursor
handle if present, nulling both. -/
def hClose (e : EnumHandles) : EnumHandles × List ResOp :=
  ({ iterator := none, docP := none },
   (match e.docP with | some d => [ResOp.freeDocOp d] | none => []) ++
   (match e.iterator with | some h => [ResOp.closeIteratorOp h] | none => []))

/-- The destructor (lines 221-224): it just calls `close`. -/
def hDestruct (e : EnumHandles) : EnumHandles × List ResOp := hClose e

/-- The move constructor (lines 207-219): the new enumerator takes the
handles and the source is nulled; no resource operation is performed. -/
def hMoveCtor (src : EnumHandles) : EnumHandles × EnumHandles :=
  ({ iterator := src.iterator, docP := src.docP }, { iterator := none, docP := none })

/-- Move assignment (lines 227-239): the target's fields are overwritten
with the source's handles and the source is nulled. No resource operation
is performed — in particular the target's previously owned cursor and
document are not released. -/
def hMoveAssign (_tgt src : EnumHandles) : EnumHandles × EnumHandles × List ResOp :=
  (({ iterator := src.iterator, docP := src.docP } : EnumHandles),
   ({ iterator := none, docP := none } : EnumHandles), ([] : List ResOp))

/-- The extra cursor moves the first loop iteration performs: none when
`_skipStep` is pending, one otherwise. -/
def stepOff (ss : Bool) : Nat := if ss then 0 else 1

/-- The documents an open key-range enumerator iterates: the store filtered
by the constructor's computed bounds. -/
def keyRangeDocs (maxLen : Nat) (store : List Doc) (k1 k2 : List Nat) (o : Options) :
    List Doc :=
  store.filter (docMatches o (keyBounds maxLen k1 k2 o).1 (keyBounds maxLen k1 k2 o).2)

/-- The documents an open sequence-range enumerator iterates. -/
def seqRangeDocs (store : List Doc) (a b : Nat) (o : Options) : List Doc :=
  store.filter (fun d =>
    decide ((seqBounds a b o).1 ≤ d.seq) && decide (d.seq ≤ (seqBounds a b o).2) &&
    (o.includeDeleted || !d.deleted))

/-! ### Concrete stores used by witnesses and counterexamples -/

/-- A document with a one-byte key equal to its sequence number. -/
def seqDoc (n : Nat) : Doc := { key := [n], seq := n, deleted := false, meta := [], body := [] }

def store5 : List Doc := [seqDoc 5, seqDoc 7, seqDoc 9, seqDoc 10]

def cstore : List Doc := [seqDoc 1, seqDoc 2, seqDoc 3]

/-- Options of the sequence-range scenario: ascending, inclusive start,
exclusive end. -/
def c5opts : Options := { kDefault with inclusiveEnd := false }

/-- The ascending options over the same logical bounds as a descending
enumeration: direction cleared, inclusivity flags exchanged. -/
def ascSwap (o : Options) : Options :=
  { o with descending := false, inclusiveStart := o.inclusiveEnd, inclusiveEnd := o.inclusiveStart }

/-! ### Helper lemmas about the iteration state machine -/

theorem decLimit_eq_sub {l : Nat} (h0 : l ≠ 0) (hu : l ≤ UINT_MAX) :
    decLimit l = l - 1 := by
  have h1 : l + UINT_MAX = (l - 1) + (UINT_MAX + 1) := by omega
  rw [decLimit, h1, Nat.add_mod_right, Nat.mod_eq_of_lt (by omega)]

theorem moveIterator_asc_ok (D : List Doc) (p : Nat) (h : p + 1 < D.length) :
    moveIterator false ⟨D, p⟩ = (.success, ⟨D, p + 1⟩) := by
  simp [moveIterator, fdb_iterator_next, h]

theorem moveIterator_asc_fail (D : List Doc) (p : Nat) (h : D.length ≤ p + 1) :
    moveIterator false ⟨D, p⟩ = (.iteratorFail, ⟨D, p⟩) := by
  have h2 : ¬ (p + 1 < D.length) := by omega
  simp [moveIterator, fdb_iterator_next, h2]

theorem moveIterator_desc_ok (D : List Doc) (p : Nat) (h : 0 < p) :
    moveIterator true ⟨D, p⟩ = (.success, ⟨D, p - 1⟩) := by
  simp [moveIterator, fdb_iterator_prev, h]

theorem moveIterator_desc_fail (D : List Doc) (p : Nat) (h : p = 0) :
    moveIterator true ⟨D, p⟩ = (.iteratorFail, ⟨D, p⟩) := by
  have h2 : ¬ (0 < p) := by omega
  simp [moveIterator, fdb_iterator_prev, h2]

theorem moveLoop_asc_done (D : List Doc) :
    ∀ (s p : Nat), p + s + 1 < D.length →
      moveLoop false ⟨D, p⟩ s = .ok (.done ⟨D, p + s + 1⟩) := by
  intro s
  induction s with
  | zero =>
    intro p h
    rw [moveLoop, moveIterator_asc_ok D p (by omega)]
  | succ s ih =>
    intro p h
    rw [moveLoop, moveIterator_asc_ok D p (by omega)]
    have h2 : p + 1 + s + 1 = p + (s + 1) + 1 := by omega
    have := ih (p + 1) (by omega)
    rw [h2] at this
    exact this

theorem moveLoop_asc_fail (D : List Doc) :
    ∀ (s p : Nat), D.length ≤ p + s + 1 →
      ∃ k, moveLoop false ⟨D, p⟩ s = .ok (.fail k) := by
  intro s
  induction s with
  | zero =>
    intro p h
    exact ⟨0, by rw [moveLoop, moveIterator_asc_fail D p (by omega)]⟩
  | succ s ih =>
    intro p h
    by_cases hm : p + 1 < D.length
    · obtain ⟨k, hk⟩ := ih (p + 1) (by omega)
      refine ⟨k, ?_⟩
      rw [moveLoop, moveIterator_asc_ok D p hm]
      exact hk
    · exact ⟨s + 1, by rw [moveLoop, moveIterator_asc_fail D p (by omega)]⟩

theorem moveLoop_desc_done (D : List Doc) :
    ∀ (s p : Nat), s + 1 ≤ p →
      moveLoop true ⟨D, p⟩ s = .ok (.done ⟨D, p - (s + 1)⟩) := by
  intro s
  induction s with
  | zero =>
    intro p h
    rw [moveLoop, moveIterator_desc_ok D p (by omega)]
  | succ s ih =>
    intro p h
    rw [moveLoop, moveIterator_desc_ok D p (by omega)]
    have h2 : p - 1 - (s + 1) = p - (s + 1 + 1) := by omega
    have := ih (p - 1) (by omega)
    rw [h2] at this
    exact this

theorem moveLoop_desc_fail (D : List Doc) :
    ∀ (s p : Nat), p ≤ s →
      ∃ k, moveLoop true ⟨D, p⟩ s = .ok (.fail k) := by
  intro s
  induction s with
  | zero =>
    intro p h
    exact ⟨0, by rw [moveLoop, moveIterator_desc_fail D p (by omega)]⟩
  | succ s ih =>
    intro p h
    by_cases hm : 0 < p
    · obtain ⟨k, hk⟩ := ih (p - 1) (by omega)
      refine ⟨k, ?_⟩
      rw [moveLoop, moveIterator_desc_ok D p hm]
      exact hk
    · exact ⟨s + 1, by rw [moveLoop, moveIterator_desc_fail D p (by omega)]⟩


theorem stepOff_true : stepOff true = 0 := rfl

theorem stepOff_false : stepOff false = 1 := rfl

theorem skipLoop_true_zero (dsc : Bool) (it : FdbIterator) :
    skipLoop dsc it true 0 = .ok (.done it) := rfl

theorem skipLoop_true_succ (dsc : Bool) (it : FdbIterator) (s : Nat) :
    skipLoop dsc it true (s + 1) = moveLoop dsc it s := rfl

theorem skipLoop_false_eq (dsc : Bool) (it : FdbIterator) (s : Nat) :
    skipLoop dsc it false s = moveLoop dsc it s := rfl

theorem skipLoop_asc_done_t (D : List Doc) (p s : Nat) (ss : Bool)
    (h : p + s + stepOff ss < D.length) :
    skipLoop false ⟨D, p⟩ ss s = .ok (.done ⟨D, p + s + stepOff ss⟩) := by
  cases ss with
  | true =>
    rw [stepOff_true] at h ⊢
    cases s with
    | zero => exact skipLoop_true_zero false ⟨D, p⟩
    | succ s =>
      rw [skipLoop_true_succ]
      have h2 : p + s + 1 = p + (s + 1) + 0 := by omega
      rw [← h2]
      exact moveLoop_asc_done D s p (by omega)
  | false =>
    rw [stepOff_false] at h ⊢
    rw [skipLoop_false_eq]
    exact moveLoop_asc_done D s p h

theorem skipLoop_asc_end (D : List Doc) (p s : Nat) (ss : Bool)
    (h : D.length ≤ p + s + stepOff ss)
    (hne : ¬ (ss = true ∧ s = 0)) :
    ∃ k, skipLoop false ⟨D, p⟩ ss s = .ok (.fail k) := by
  cases ss with
  | true =>
    rw [stepOff_true] at h
    cases s with
    | zero => exact absurd ⟨rfl, rfl⟩ hne
    | succ s =>
      rw [skipLoop_true_succ]
      exact moveLoop_asc_fail D s p (by omega)
  | false =>
    rw [stepOff_false] at h
    rw [skipLoop_false_eq]
    exact moveLoop_asc_fail D s p h

theorem skipLoop_desc_done_t (D : List Doc) (p s : Nat) (ss : Bool)
    (h : s + stepOff ss ≤ p) :
    skipLoop true ⟨D, p⟩ ss s = .ok (.done ⟨D, p - s - stepOff ss⟩) := by
  cases ss with
  | true =>
    rw [stepOff_true] at h ⊢
    cases s with
    | zero => exact skipLoop_true_zero true ⟨D, p⟩
    | succ s =>
      rw [skipLoop_true_succ]
      have h2 : p - (s + 1) = p - (s + 1) - 0 := by omega
      rw [← h2]
      exact moveLoop_desc_done D s p (by omega)
  | false =>
    rw [stepOff_false] at h ⊢
    rw [skipLoop_false_eq]
    have h2 : p - (s + 1) = p - s - 1 := by omega
    rw [← h2]
    exact moveLoop_desc_done D s p (by omega)

theorem skipLoop_desc_end (D : List Doc) (p s : Nat) (ss : Bool)
    (h : p < s + stepOff ss) :
    ∃ k, skipLoop true ⟨D, p⟩ ss s = .ok (.fail k) := by
  cases ss with
  | true =>
    rw [stepOff_true] at h
    cases s with
    | zero => omega
    | succ s =>
      rw [skipLoop_true_succ]
      exact moveLoop_desc_fail D s p (by omega)
  | false =>
    rw [stepOff_false] at h
    rw [skipLoop_false_eq]
    exact moveLoop_desc_fail D s p (by omega)

theorem get?_lt {D : List Doc} {t : Nat} (h : t < D.length) :
    D.get? t = some (D.getD t dummyDoc) := by
  rw [List.get?_eq_getElem?, List.getElem?_eq_getElem h,
      List.getD_eq_getElem?_getD, List.getElem?_eq_getElem h]
  rfl

theorem get?_ge {D : List Doc} {t : Nat} (h : D.length ≤ t) :
    D.get? t = none := by
  rw [List.get?_eq_getElem?, List.getElem?_eq_none h]

theorem getDoc_ok (e : DocEnumerator) (it : FdbIterator)
    (h : it.pos < it.docs.length) :
    getDoc e it =
      .ok ({ e with doc := some (fetchDoc e.options.metaOnly (it.docs.getD it.pos dummyDoc)) },
           true) := by
  rw [getDoc, iterator_get, get?_lt h]

theorem getDoc_end (e : DocEnumerator) (it : FdbIterator)
    (h : it.docs.length ≤ it.pos) :
    getDoc e it = .ok (closeEnum { e with doc := none }, false) := by
  rw [getDoc, iterator_get, get?_ge h]

theorem next_rangeState (store D : List Doc) (o : Options) (p : Nat) (ss : Bool)
    (d : Option Doc) (hl : o.limit ≠ 0) :
    next store (rangeState D o p ss d) =
      match skipLoop o.descending ⟨D, p⟩ ss o.skip with
      | .error st => .error st
      | .ok (.fail k) =>
        .ok ({ iterator := none,
               options := { o with limit := decLimit o.limit, skip := k },
               docIDs := [], curDocIndex := 0, doc := none, skipStep := false }, false)
      | .ok (.done it2) =>
        getDoc { iterator := some it2,
                 options := { o with limit := decLimit o.limit, skip := 0 },
                 docIDs := [], curDocIndex := 0, doc := d, skipStep := false } it2 := by
  obtain ⟨sk, lim, dsc, is1, ie1, idel, mo⟩ := o
  cases lim with
  | zero => exact absurd rfl hl
  | succ n => rfl

theorem next_range_limit0 (store D : List Doc) (o : Options) (p : Nat) (ss : Bool)
    (d : Option Doc) (hl : o.limit = 0) :
    next store (rangeState D o p ss d) =
      .ok ({ iterator := none, options := { o with limit := decLimit o.limit },
             docIDs := [], curDocIndex := 0, doc := none, skipStep := ss }, false) := by
  obtain ⟨sk, lim, dsc, is1, ie1, idel, mo⟩ := o
  dsimp only at hl
  subst hl
  rfl

theorem next_range_yield_asc (store D : List Doc) (o : Options) (p : Nat) (ss : Bool)
    (d : Option Doc) (hdesc : o.descending = false) (hl : o.limit ≠ 0)
    (ht : p + o.skip + stepOff ss < D.length) :
    next store (rangeState D o p ss d) =
      .ok (rangeState D { o with skip := 0, limit := decLimit o.limit }
            (p + o.skip + stepOff ss) false
            (some (fetchDoc o.metaOnly (D.getD (p + o.skip + stepOff ss) dummyDoc))),
           true) := by
  have hloop : skipLoop o.descending ⟨D, p⟩ ss o.skip =
      .ok (.done ⟨D, p + o.skip + stepOff ss⟩) := by
    rw [hdesc]
    exact skipLoop_asc_done_t D p o.skip ss ht
  rw [next_rangeState store D o p ss d hl, hloop]
  exact getDoc_ok
    { iterator := some ⟨D, p + o.skip + stepOff ss⟩,
      options := { o with limit := decLimit o.limit, skip := 0 },
      docIDs := [], curDocIndex := 0, doc := d, skipStep := false }
    ⟨D, p + o.skip + stepOff ss⟩ ht

theorem next_range_end_asc (store D : List Doc) (o : Options) (p : Nat) (ss : Bool)
    (d : Option Doc) (hdesc : o.descending = false) (hl : o.limit ≠ 0)
    (ht : D.length ≤ p + o.skip + stepOff ss) :
    ∃ e2, next store (rangeState D o p ss d) = .ok (e2, false) := by
  by_cases hz : ss = true ∧ o.skip = 0
  · obtain ⟨h1, h2⟩ := hz
    subst h1
    have hloop : skipLoop o.descending ⟨D, p⟩ true o.skip = .ok (.done ⟨D, p⟩) := by
      rw [hdesc, h2]
      exact skipLoop_true_zero false ⟨D, p⟩
    rw [next_rangeState store D o p true d hl, hloop]
    have hp : D.length ≤ p := by
      rw [stepOff_true] at ht
      omega
    exact ⟨_, getDoc_end
      { iterator := some ⟨D, p⟩,
        options := { o with limit := decLimit o.limit, skip := 0 },
        docIDs := [], curDocIndex := 0, doc := d, skipStep := false }
      ⟨D, p⟩ hp⟩
  · obtain ⟨k, hk⟩ := skipLoop_asc_end D p o.skip ss ht hz
    have hloop : skipLoop o.descending ⟨D, p⟩ ss o.skip = .ok (.fail k) := by
      rw [hdesc]
      exact hk
    rw [next_rangeState store D o p ss d hl, hloop]
    exact ⟨_, rfl⟩

theorem next_range_yield_desc (store D : List Doc) (o : Options) (p : Nat) (ss : Bool)
    (d : Option Doc) (hdesc : o.descending = true) (hl : o.limit ≠ 0)
    (hs : o.skip + stepOff ss ≤ p) (hp : p < D.length) :
    next store (rangeState D o p ss d) =
      .ok (rangeState D { o with skip := 0, limit := decLimit o.limit }
            (p - o.skip - stepOff ss) false
            (some (fetchDoc o.metaOnly (D.getD (p - o.skip - stepOff ss) dummyDoc))),
           true) := by
  have hloop : skipLoop o.descending ⟨D, p⟩ ss o.skip =
      .ok (.done ⟨D, p - o.skip - stepOff ss⟩) := by
    rw [hdesc]
    exact skipLoop_desc_done_t D p o.skip ss hs
  rw [next_rangeState store D o p ss d hl, hloop]
  exact getDoc_ok
    { iterator := some ⟨D, p - o.skip - stepOff ss⟩,
      options := { o with limit := decLimit o.limit, skip := 0 },
      docIDs := [], curDocIndex := 0, doc := d, skipStep := false }
    ⟨D, p - o.skip - stepOff ss⟩ (by simp; omega)

theorem next_range_end_desc (store D : List Doc) (o : Options) (p : Nat) (ss : Bool)
    (d : Option Doc) (hdesc : o.descending = true) (hl : o.limit ≠ 0)
    (h : p < o.skip + stepOff ss ∨ D = []) :
    ∃ e2, next store (rangeState D o p ss d) = .ok (e2, false) := by
  by_cases hlt : p < o.skip + stepOff ss
  · obtain ⟨k, hk⟩ := skipLoop_desc_end D p o.skip ss hlt
    have hloop : skipLoop o.descending ⟨D, p⟩ ss o.skip = .ok (.fail k) := by
      rw [hdesc]
      exact hk
    rw [next_rangeState store D o p ss d hl, hloop]
    exact ⟨_, rfl⟩
  · have hD : D = [] := by
      cases h with
      | inl h1 => exact absurd h1 hlt
      | inr h2 => exact h2
    have hloop : skipLoop o.descending ⟨D, p⟩ ss o.skip =
        .ok (.done ⟨D, p - o.skip - stepOff ss⟩) := by
      rw [hdesc]
      exact skipLoop_desc_done_t D p o.skip ss (by omega)
    rw [next_rangeState store D o p ss d hl, hloop]
    exact ⟨_, getDoc_end
      { iterator := some ⟨D, p - o.skip - stepOff ss⟩,
        options := { o with limit := decLimit o.limit, skip := 0 },
        docIDs := [], curDocIndex := 0, doc := d, skipStep := false }
      ⟨D, p - o.skip - stepOff ss⟩ (by simp [hD])⟩

theorem next_noIterator (store : List Doc) (e : DocEnumerator)
    (hi : e.iterator = none) (hd : e.docIDs = []) :
    next store e = .ok (e, false) := by
  simp only [next, hd, hi, List.length_nil, Nat.lt_irrefl, if_false]

theorem enumAll_cons (store : List Doc) (e : DocEnumerator) (fuel : Nat)
    (e2 : DocEnumerator) (dd : Doc)
    (h : next store e = .ok (e2, true)) (hd : e2.doc = some dd) :
    enumAll store e (fuel + 1) = dd :: enumAll store e2 fuel := by
  simp only [enumAll, h, hd]

theorem enumAll_stop (store : List Doc) (e : DocEnumerator) (fuel : Nat)
    (e2 : DocEnumerator) (h : next store e = .ok (e2, false)) :
    enumAll store e (fuel + 1) = [] := by
  simp only [enumAll, h]

theorem enumAll_noIterator (store : List Doc) (e : DocEnumerator) (fuel : Nat)
    (hi : e.iterator = none) (hd : e.docIDs = []) :
    enumAll store e fuel = [] := by
  cases fuel with
  | zero => rfl
  | succ n => exact enumAll_stop store e n e (next_noIterator store e hi hd)

theorem drop_eq_getD_cons {D : List Doc} {t : Nat} (h : t < D.length) :
    D.drop t = D.getD t dummyDoc :: D.drop (t + 1) := by
  rw [List.getD_eq_getElem?_getD, List.getElem?_eq_getElem h]
  exact List.drop_eq_getElem_cons h

theorem enumAll_asc (store D : List Doc) :
    ∀ (fuel : Nat) (o : Options) (p : Nat) (ss : Bool) (d : Option Doc),
      o.descending = false → o.limit ≤ UINT_MAX →
      D.length + 1 ≤ fuel + (p + o.skip + stepOff ss) →
      enumAll store (rangeState D o p ss d) fuel =
        ((D.drop (p + o.skip + stepOff ss)).take o.limit).map (fetchDoc o.metaOnly) := by
  intro fuel
  induction fuel with
  | zero =>
    intro o p ss d hdesc hu hf
    rw [List.drop_eq_nil_of_le (by omega), List.take_nil, List.map_nil]
    rfl
  | succ fuel ih =>
    intro o p ss d hdesc hu hf
    by_cases hl0 : o.limit = 0
    · rw [enumAll_stop store _ fuel _ (next_range_limit0 store D o p ss d hl0), hl0,
          List.take_zero, List.map_nil]
    · by_cases ht : p + o.skip + stepOff ss < D.length
      · obtain ⟨l2, hl2⟩ : ∃ l2, o.limit = l2 + 1 := ⟨o.limit - 1, by omega⟩
        have hd2 : decLimit o.limit = l2 := by
          rw [hl2, decLimit_eq_sub (by simp) (by omega)]
          omega
        rw [enumAll_cons store _ fuel _ _ (next_range_yield_asc store D o p ss d hdesc hl0 ht) rfl]
        rw [ih { o with skip := 0, limit := decLimit o.limit } (p + o.skip + stepOff ss) false
              (some (fetchDoc o.metaOnly (D.getD (p + o.skip + stepOff ss) dummyDoc)))
              hdesc (by dsimp only; rw [hd2]; omega)
              (by dsimp only; rw [stepOff_false]; omega)]
        show fetchDoc o.metaOnly (D.getD (p + o.skip + stepOff ss) dummyDoc) ::
            ((D.drop (p + o.skip + stepOff ss + 0 + stepOff false)).take (decLimit o.limit)).map
              (fetchDoc o.metaOnly)
          = ((D.drop (p + o.skip + stepOff ss)).take o.limit).map (fetchDoc o.metaOnly)
        rw [stepOff_false, hd2, hl2, drop_eq_getD_cons ht, List.take_succ_cons, List.map_cons]
      · obtain ⟨e2, he2⟩ := next_range_end_asc store D o p ss d hdesc hl0 (by omega)
        rw [enumAll_stop store _ fuel _ he2,
            List.drop_eq_nil_of_le (by omega), List.take_nil, List.map_nil]

theorem stepOff_le_one (ss : Bool) : stepOff ss ≤ 1 := by
  cases ss <;> simp [stepOff]

theorem take_succ_getD {D : List Doc} {t : Nat} (h : t < D.length) :
    D.take (t + 1) = D.take t ++ [D.getD t dummyDoc] := by
  rw [List.take_succ, List.getD_eq_getElem?_getD, List.getElem?_eq_getElem h]
  rfl

theorem enumAll_desc (store D : List Doc) :
    ∀ (fuel : Nat) (o : Options) (p : Nat) (ss : Bool) (d : Option Doc),
      o.descending = true → o.limit ≤ UINT_MAX →
      (p < D.length ∨ D = []) →
      (p + (1 - stepOff ss)) - o.skip + 1 ≤ fuel →
      enumAll store (rangeState D o p ss d) fuel =
        (((D.take ((p + (1 - stepOff ss)) - o.skip)).reverse).take o.limit).map
          (fetchDoc o.metaOnly) := by
  intro fuel
  induction fuel with
  | zero =>
    intro o p ss d hdesc hu hpI hf
    omega
  | succ fuel ih =>
    intro o p ss d hdesc hu hpI hf
    have hss := stepOff_le_one ss
    by_cases hl0 : o.limit = 0
    · rw [enumAll_stop store _ fuel _ (next_range_limit0 store D o p ss d hl0), hl0,
          List.take_zero, List.map_nil]
    · by_cases hcan : o.skip + stepOff ss ≤ p ∧ p < D.length
      · obtain ⟨hs, hp⟩ := hcan
        have hp2 : p - o.skip - stepOff ss < D.length := by omega
        obtain ⟨l2, hl2⟩ : ∃ l2, o.limit = l2 + 1 := ⟨o.limit - 1, by omega⟩
        have hd2 : decLimit o.limit = l2 := by
          rw [hl2, decLimit_eq_sub (by simp) (by omega)]
          omega
        rw [enumAll_cons store _ fuel _ _
              (next_range_yield_desc store D o p ss d hdesc hl0 hs hp) rfl]
        rw [ih { o with skip := 0, limit := decLimit o.limit } (p - o.skip - stepOff ss) false
              (some (fetchDoc o.metaOnly (D.getD (p - o.skip - stepOff ss) dummyDoc)))
              hdesc (by dsimp only; rw [hd2]; omega)
              (Or.inl hp2)
              (by dsimp only; rw [stepOff_false]; omega)]
        show fetchDoc o.metaOnly (D.getD (p - o.skip - stepOff ss) dummyDoc) ::
            (((D.take (p - o.skip - stepOff ss)).reverse).take (decLimit o.limit)).map
              (fetchDoc o.metaOnly)
          = (((D.take ((p + (1 - stepOff ss)) - o.skip)).reverse).take o.limit).map
              (fetchDoc o.metaOnly)
        have hn : (p + (1 - stepOff ss)) - o.skip = (p - o.skip - stepOff ss) + 1 := by omega
        rw [hn, hd2, hl2, take_succ_getD hp2]
        simp only [List.reverse_append, List.reverse_cons, List.reverse_nil, List.nil_append,
          List.singleton_append]
        rw [List.take_succ_cons, List.map_cons]
      · have hor : p < o.skip + stepOff ss ∨ D = [] := by
          by_cases h1 : p < o.skip + stepOff ss
          · exact Or.inl h1
          · cases hpI with
            | inl h2 => exact absurd ⟨by omega, h2⟩ hcan
            | inr h2 => exact Or.inr h2
        obtain ⟨e2, he2⟩ := next_range_end_desc store D o p ss d hdesc hl0 hor
        rw [enumAll_stop store _ fuel _ he2]
        cases hor with
        | inl h1 =>
          rw [show ((p + (1 - stepOff ss)) - o.skip) = 0 from by omega,
              List.take_zero, List.reverse_nil, List.take_nil, List.map_nil]
        | inr h1 =>
          subst h1
          rw [List.take_nil, List.reverse_nil, List.take_nil, List.map_nil]

theorem reverse_drop_eq_take_reverse (D : List Doc) (s : Nat) :
    D.reverse.drop s = (D.take (D.length - s)).reverse := by
  by_cases h : s ≤ D.length
  · have hgen : ∀ (A B : List Doc), B.length = s → (B ++ A).drop s = A := by
      intro A B hB
      rw [← hB]
      exact List.drop_left B A
    conv_lhs => rw [← List.take_append_drop (D.length - s) D]
    rw [List.reverse_append]
    refine hgen _ _ ?_
    rw [List.length_reverse, List.length_drop]
    omega
  · have h0 : D.length - s = 0 := by omega
    rw [h0, List.take_zero, List.reverse_nil]
    exact List.drop_eq_nil_of_le (by rw [List.length_reverse]; omega)

theorem initialPosition_asc (D : List Doc) (o : Options) (h : o.descending = false) :
    initialPosition (rangeState D o 0 true none) = rangeState D o 0 true none := by
  dsimp only [initialPosition, rangeState]
  rw [h]
  rfl

theorem initialPosition_desc (D : List Doc) (o : Options) (h : o.descending = true) :
    initialPosition (rangeState D o 0 true none) =
      rangeState D o (D.length - 1) true none := by
  dsimp only [initialPosition, rangeState]
  rw [h]
  by_cases hD : 0 < D.length
  · rw [fdb_iterator_seek_to_max,
        if_pos (show 0 < ({ docs := D, pos := 0 } : FdbIterator).docs.length from hD)]
    rfl
  · rw [fdb_iterator_seek_to_max,
        if_neg (show ¬ 0 < ({ docs := D, pos := 0 } : FdbIterator).docs.length from hD)]
    have h0 : D.length - 1 = 0 := by omega
    rw [h0]
    rfl

theorem mkKeyRange_eq (maxLen : Nat) (store : List Doc) (k1 k2 : List Nat) (o : Options) :
    mkKeyRange maxLen store k1 k2 o =
      initialPosition (rangeState (keyRangeDocs maxLen store k1 k2 o) o 0 true none) := rfl

theorem mkSeqRange_empty (store : List Doc) (a b : Nat) (o : Options)
    (h : (seqBounds a b o).1 > (seqBounds a b o).2) :
    mkSeqRange store a b o =
      { iterator := none, options := o, docIDs := [], curDocIndex := 0,
        doc := none, skipStep := true } := by
  simp only [mkSeqRange]
  rw [if_pos h]

theorem mkSeqRange_open (store : List Doc) (a b : Nat) (o : Options)
    (h : ¬ ((seqBounds a b o).1 > (seqBounds a b o).2)) :
    mkSeqRange store a b o =
      initialPosition (rangeState (seqRangeDocs store a b o) o 0 true none) := by
  simp only [mkSeqRange]
  rw [if_neg h]
  rfl

theorem enumAll_mkKeyRange_asc (maxLen : Nat) (store st2 : List Doc) (k1 k2 : List Nat)
    (o : Options) (fuel : Nat) (hdesc : o.descending = false) (hu : o.limit ≤ UINT_MAX)
    (hf : store.length + 2 ≤ fuel) :
    enumAll st2 (mkKeyRange maxLen store k1 k2 o) fuel =
      (((keyRangeDocs maxLen store k1 k2 o).drop o.skip).take o.limit).map
        (fetchDoc o.metaOnly) := by
  have hD : (keyRangeDocs maxLen store k1 k2 o).length ≤ store.length :=
    List.length_filter_le _ _
  rw [mkKeyRange_eq, initialPosition_asc _ _ hdesc]
  rw [enumAll_asc st2 (keyRangeDocs maxLen store k1 k2 o) fuel o 0 true none hdesc hu
        (by rw [stepOff_true]; omega)]
  rw [stepOff_true, show 0 + o.skip + 0 = o.skip from by omega]

theorem enumAll_mkKeyRange_desc (maxLen : Nat) (store st2 : List Doc) (k1 k2 : List Nat)
    (o : Options) (fuel : Nat) (hdesc : o.descending = true) (hu : o.limit ≤ UINT_MAX)
    (hf : store.length + 2 ≤ fuel) :
    enumAll st2 (mkKeyRange maxLen store k1 k2 o) fuel =
      ((((keyRangeDocs maxLen store k1 k2 o).reverse).drop o.skip).take o.limit).map
        (fetchDoc o.metaOnly) := by
  have hD : (keyRangeDocs maxLen store k1 k2 o).length ≤ store.length :=
    List.length_filter_le _ _
  rw [mkKeyRange_eq, initialPosition_desc _ _ hdesc]
  rw [enumAll_desc st2 (keyRangeDocs maxLen store k1 k2 o) fuel o
        ((keyRangeDocs maxLen store k1 k2 o).length - 1) true none hdesc hu
        (by
          rcases Nat.eq_zero_or_pos (keyRangeDocs maxLen store k1 k2 o).length with h0 | h0
          · exact Or.inr (List.length_eq_zero.mp h0)
          · exact Or.inl (by omega))
        (by rw [stepOff_true]; omega)]
  rw [stepOff_true, reverse_drop_eq_take_reverse]
  rcases Nat.eq_zero_or_pos (keyRangeDocs maxLen store k1 k2 o).length with h0 | h0
  · rw [List.length_eq_zero.mp h0]
    simp [List.take_nil]
  · rw [show ((keyRangeDocs maxLen store k1 k2 o).length - 1 + (1 - 0)) - o.skip =
          (keyRangeDocs maxLen store k1 k2 o).length - o.skip from by omega]

theorem enumAll_mkSeqRange_asc (store st2 : List Doc) (a b : Nat)
    (o : Options) (fuel : Nat) (hdesc : o.descending = false) (hu : o.limit ≤ UINT_MAX)
    (hf : store.length + 2 ≤ fuel) :
    enumAll st2 (mkSeqRange store a b o) fuel =
      if (seqBounds a b o).1 > (seqBounds a b o).2 then []
      else (((seqRangeDocs store a b o).drop o.skip).take o.limit).map
        (fetchDoc o.metaOnly) := by
  by_cases hb : (seqBounds a b o).1 > (seqBounds a b o).2
  · rw [if_pos hb, mkSeqRange_empty store a b o hb]
    exact enumAll_noIterator st2 _ fuel rfl rfl
  · have hD : (seqRangeDocs store a b o).length ≤ store.length := List.length_filter_le _ _
    rw [if_neg hb, mkSeqRange_open store a b o hb, initialPosition_asc _ _ hdesc]
    rw [enumAll_asc st2 (seqRangeDocs store a b o) fuel o 0 true none hdesc hu
          (by rw [stepOff_true]; omega)]
    rw [stepOff_true, show 0 + o.skip + 0 = o.skip from by omega]

theorem enumAll_mkSeqRange_desc (store st2 : List Doc) (a b : Nat)
    (o : Options) (fuel : Nat) (hdesc : o.descending = true) (hu : o.limit ≤ UINT_MAX)
    (hf : store.length + 2 ≤ fuel) :
    enumAll st2 (mkSeqRange store a b o) fuel =
      if (seqBounds a b o).1 > (seqBounds a b o).2 then []
      else ((((seqRangeDocs store a b o).reverse).drop o.skip).take o.limit).map
        (fetchDoc o.metaOnly) := by
  by_cases hb : (seqBounds a b o).1 > (seqBounds a b o).2
  · rw [if_pos hb, mkSeqRange_empty store a b o hb]
    exact enumAll_noIterator st2 _ fuel rfl rfl
  · have hD : (seqRangeDocs store a b o).length ≤ store.length := List.length_filter_le _ _
    rw [if_neg hb, mkSeqRange_open store a b o hb, initialPosition_desc _ _ hdesc]
    rw [enumAll_desc st2 (seqRangeDocs store a b o) fuel o
          ((seqRangeDocs store a b o).length - 1) true none hdesc hu
          (by
            rcases Nat.eq_zero_or_pos (seqRangeDocs store a b o).length with h0 | h0
            · exact Or.inr (List.length_eq_zero.mp h0)
            · exact Or.inl (by omega))
          (by rw [stepOff_true]; omega)]
    rw [stepOff_true, reverse_drop_eq_take_reverse]
    rcases Nat.eq_zero_or_pos (seqRangeDocs store a b o).length with h0 | h0
    · rw [List.length_eq_zero.mp h0]
      simp [List.take_nil]
    · rw [show ((seqRangeDocs store a b o).length - 1 + (1 - 0)) - o.skip =
            (seqRangeDocs store a b o).length - o.skip from by omega]

/-! ### Claims -/

/-- C1: in key-range or sequence-range mode, for every store contents,
every logical range, and all options with skip `s` and limit `l`, the
sequence of documents yielded by repeated `next` calls equals the sequence
yielded over the same range with skip 0 and unlimited limit with its first
`s` entries dropped and then truncated to at most `l` entries; documents
discarded by the skip loop do not count against the limit. -/
theorem c1_skip_limit_window (maxLen : Nat) (store : List Doc) (k1 k2 : List Nat)
    (a b : Nat) (o : Options) (s l fuel fuel2 : Nat)
    (hl : l ≤ UINT_MAX) (hstore : store.length ≤ UINT_MAX)
    (hf : store.length + 2 ≤ fuel) (hf2 : store.length + 2 ≤ fuel2) :
    (enumAll store (mkKeyRange maxLen store k1 k2 { o with skip := s, limit := l }) fuel =
      ((enumAll store (mkKeyRange maxLen store k1 k2
          { o with skip := 0, limit := UINT_MAX }) fuel2).drop s).take l)
    ∧ (enumAll store (mkSeqRange store a b { o with skip := s, limit := l }) fuel =
      ((enumAll store (mkSeqRange store a b
          { o with skip := 0, limit := UINT_MAX }) fuel2).drop s).take l) := by
  have hkD : keyRangeDocs maxLen store k1 k2 { o with skip := s, limit := l } =
      keyRangeDocs maxLen store k1 k2 { o with skip := 0, limit := UINT_MAX } := rfl
  have hsD : seqRangeDocs store a b { o with skip := s, limit := l } =
      seqRangeDocs store a b { o with skip := 0, limit := UINT_MAX } := rfl
  have hsB : seqBounds a b { o with skip := s, limit := l } =
      seqBounds a b { o with skip := 0, limit := UINT_MAX } := rfl
  have hklen : (keyRangeDocs maxLen store k1 k2
      { o with skip := 0, limit := UINT_MAX }).length ≤ UINT_MAX :=
    le_trans (List.length_filter_le _ _) hstore
  have hslen : (seqRangeDocs store a b
      { o with skip := 0, limit := UINT_MAX }).length ≤ UINT_MAX :=
    le_trans (List.length_filter_le _ _) hstore
  have hklenR : (keyRangeDocs maxLen store k1 k2
      { o with skip := 0, limit := UINT_MAX }).reverse.length ≤ UINT_MAX := by
    rw [List.length_reverse]
    exact hklen
  have hslenR : (seqRangeDocs store a b
      { o with skip := 0, limit := UINT_MAX }).reverse.length ≤ UINT_MAX := by
    rw [List.length_reverse]
    exact hslen
  constructor
  · by_cases hdesc : o.descending = true
    · rw [enumAll_mkKeyRange_desc maxLen store store k1 k2 { o with skip := s, limit := l } fuel hdesc hl hf,
          enumAll_mkKeyRange_desc maxLen store store k1 k2 { o with skip := 0, limit := UINT_MAX } fuel2 hdesc (le_refl UINT_MAX) hf2]
      dsimp only
      rw [hkD, List.drop_zero,
          List.take_of_length_le hklenR,
          List.map_take, List.map_drop]
    · rw [Bool.not_eq_true] at hdesc
      rw [enumAll_mkKeyRange_asc maxLen store store k1 k2 { o with skip := s, limit := l } fuel hdesc hl hf,
          enumAll_mkKeyRange_asc maxLen store store k1 k2 { o with skip := 0, limit := UINT_MAX } fuel2 hdesc (le_refl UINT_MAX) hf2]
      dsimp only
      rw [hkD, List.drop_zero, List.take_of_length_le hklen, List.map_take, List.map_drop]
  · by_cases hdesc : o.descending = true
    · rw [enumAll_mkSeqRange_desc store store a b { o with skip := s, limit := l } fuel hdesc hl hf,
          enumAll_mkSeqRange_desc store store a b { o with skip := 0, limit := UINT_MAX } fuel2 hdesc (le_refl UINT_MAX) hf2]
      dsimp only
      rw [hsD, hsB]
      by_cases hb : (seqBounds a b { o with skip := 0, limit := UINT_MAX }).1 >
          (seqBounds a b { o with skip := 0, limit := UINT_MAX }).2
      · rw [if_pos hb, if_pos hb]
        simp
      · rw [if_neg hb, if_neg hb, List.drop_zero,
            List.take_of_length_le hslenR,
            List.map_take, List.map_drop]
    · rw [Bool.not_eq_true] at hdesc
      rw [enumAll_mkSeqRange_asc store store a b { o with skip := s, limit := l } fuel hdesc hl hf,
          enumAll_mkSeqRange_asc store store a b { o with skip := 0, limit := UINT_MAX } fuel2 hdesc (le_refl UINT_MAX) hf2]
      dsimp only
      rw [hsD, hsB]
      by_cases hb : (seqBounds a b { o with skip := 0, limit := UINT_MAX }).1 >
          (seqBounds a b { o with skip := 0, limit := UINT_MAX }).2
      · rw [if_pos hb, if_pos hb]
        simp
      · rw [if_neg hb, if_neg hb, List.drop_zero, List.take_of_length_le hslen,
            List.map_take, List.map_drop]

theorem c1_skip_limit_window_witness :
    (1 ≤ UINT_MAX) ∧ (cstore.length ≤ UINT_MAX) ∧ (cstore.length + 2 ≤ 5) ∧
    ((enumAll cstore (mkKeyRange FDB_MAX_KEYLEN cstore [] []
        { kDefault with skip := 1, limit := 1 }) 5 =
      ((enumAll cstore (mkKeyRange FDB_MAX_KEYLEN cstore [] []
          { kDefault with skip := 0, limit := UINT_MAX }) 5).drop 1).take 1)
    ∧ (enumAll cstore (mkSeqRange cstore 0 20 { kDefault with skip := 1, limit := 1 }) 5 =
      ((enumAll cstore (mkSeqRange cstore 0 20
          { kDefault with skip := 0, limit := UINT_MAX }) 5).drop 1).take 1)) :=
  ⟨by decide, by decide, by decide,
   c1_skip_limit_window FDB_MAX_KEYLEN cstore [] [] 0 20 kDefault 1 1 5 5
     (by decide) (by decide) (by decide) (by decide)⟩

/-- C4: for every key or sequence range, enumeration with descending true
(skip 0, unlimited limit) yields exactly the reverse of the sequence
yielded by ascending enumeration over the same logical bounds with the
same inclusivity flags; descending construction swaps bounds and
inclusivity flags, then positions the cursor at the maximum. -/
theorem c4_descending_reverse (maxLen : Nat) (store : List Doc) (k1 k2 : List Nat)
    (a b : Nat) (o : Options) (fuel fuel2 : Nat)
    (hskip : o.skip = 0) (hlim : o.limit = UINT_MAX) (hstore : store.length ≤ UINT_MAX)
    (hf : store.length + 2 ≤ fuel) (hf2 : store.length + 2 ≤ fuel2) :
    (enumAll store (mkKeyRange maxLen store k1 k2 { o with descending := true }) fuel =
      (enumAll store (mkKeyRange maxLen store k2 k1 (ascSwap o)) fuel2).reverse)
    ∧ (enumAll store (mkSeqRange store a b { o with descending := true }) fuel =
      (enumAll store (mkSeqRange store b a (ascSwap o)) fuel2).reverse) := by
  have hkD : keyRangeDocs maxLen store k1 k2 { o with descending := true } =
      keyRangeDocs maxLen store k2 k1 (ascSwap o) := rfl
  have hsB : seqBounds a b { o with descending := true } = seqBounds b a (ascSwap o) := rfl
  have hsD : seqRangeDocs store a b { o with descending := true } =
      seqRangeDocs store b a (ascSwap o) := rfl
  have hkl : (keyRangeDocs maxLen store k2 k1 (ascSwap o)).length ≤ UINT_MAX :=
    le_trans (List.length_filter_le _ _) hstore
  have hklR : (keyRangeDocs maxLen store k2 k1 (ascSwap o)).reverse.length ≤ UINT_MAX := by
    rw [List.length_reverse]
    exact hkl
  have hsl : (seqRangeDocs store b a (ascSwap o)).length ≤ UINT_MAX :=
    le_trans (List.length_filter_le _ _) hstore
  have hslR : (seqRangeDocs store b a (ascSwap o)).reverse.length ≤ UINT_MAX := by
    rw [List.length_reverse]
    exact hsl
  constructor
  · rw [enumAll_mkKeyRange_desc maxLen store store k1 k2 { o with descending := true }
          fuel rfl (le_of_eq hlim) hf,
        enumAll_mkKeyRange_asc maxLen store store k2 k1 (ascSwap o)
          fuel2 rfl (le_of_eq hlim) hf2]
    dsimp only
    have haS : (ascSwap o).skip = 0 := hskip
    have haL : (ascSwap o).limit = UINT_MAX := hlim
    have haM : (ascSwap o).metaOnly = o.metaOnly := rfl
    rw [hkD, hskip, hlim, haS, haL, haM]
    simp only [List.drop_zero]
    rw [List.take_of_length_le hklR, List.take_of_length_le hkl, List.map_reverse]
  · rw [enumAll_mkSeqRange_desc store store a b { o with descending := true }
          fuel rfl (le_of_eq hlim) hf,
        enumAll_mkSeqRange_asc store store b a (ascSwap o)
          fuel2 rfl (le_of_eq hlim) hf2]
    dsimp only
    have haS : (ascSwap o).skip = 0 := hskip
    have haL : (ascSwap o).limit = UINT_MAX := hlim
    rw [hsB, hsD]
    by_cases hb : (seqBounds b a (ascSwap o)).1 > (seqBounds b a (ascSwap o)).2
    · rw [if_pos hb, if_pos hb, List.reverse_nil]
    · have haM : (ascSwap o).metaOnly = o.metaOnly := rfl
      rw [if_neg hb, if_neg hb, hskip, hlim, haS, haL, haM]
      simp only [List.drop_zero]
      rw [List.take_of_length_le hslR, List.take_of_length_le hsl, List.map_reverse]

theorem c4_descending_reverse_witness :
    (kDefault.skip = 0) ∧ (kDefault.limit = UINT_MAX) ∧ (cstore.length ≤ UINT_MAX) ∧
    (cstore.length + 2 ≤ 5) ∧
    ((enumAll cstore (mkKeyRange FDB_MAX_KEYLEN cstore [3] [1]
        { kDefault with descending := true }) 5 =
      (enumAll cstore (mkKeyRange FDB_MAX_KEYLEN cstore [1] [3] (ascSwap kDefault)) 5).reverse)
    ∧ (enumAll cstore (mkSeqRange cstore 3 1 { kDefault with descending := true }) 5 =
      (enumAll cstore (mkSeqRange cstore 1 3 (ascSwap kDefault)) 5).reverse)) :=
  ⟨by decide, by decide, by decide, by decide,
   c4_descending_reverse FDB_MAX_KEYLEN cstore [3] [1] 3 1 kDefault 5 5
     (by decide) (by decide) (by decide) (by decide) (by decide)⟩

/-- C5: in sequence-range mode, after swapping bounds for descending, an
exclusive minimum bound adds one and an exclusive maximum bound subtracts
one (this is the `seqBounds` computation); whenever the normalized minimum
exceeds the maximum, no underlying cursor is opened and every `next` call
reports end-of-sequence. In particular, start 5, end 10, exclusive end
over a store containing sequences 5, 7, 9, 10 yields exactly the
documents at sequences 5, 7, 9 in ascending order. -/
theorem c5_seq_exclusive_bounds (store : List Doc) (a b : Nat) (o : Options)
    (h : (seqBounds a b o).1 > (seqBounds a b o).2) :
    ((mkSeqRange store a b o).iterator = none
      ∧ ∀ st2 : List Doc, next st2 (mkSeqRange store a b o) = .ok (mkSeqRange store a b o, false))
    ∧ enumAll store5 (mkSeqRange store5 5 10 c5opts) 5 =
        [seqDoc 5, seqDoc 7, seqDoc 9] := by
  constructor
  · rw [mkSeqRange_empty store a b o h]
    exact ⟨rfl, fun st2 => next_noIterator st2 _ rfl rfl⟩
  · decide

theorem c5_seq_exclusive_bounds_witness :
    ((seqBounds 5 5 c5opts).1 > (seqBounds 5 5 c5opts).2) ∧
    (((mkSeqRange cstore 5 5 c5opts).iterator = none
      ∧ ∀ st2 : List Doc, next st2 (mkSeqRange cstore 5 5 c5opts) =
          .ok (mkSeqRange cstore 5 5 c5opts, false))
    ∧ enumAll store5 (mkSeqRange store5 5 10 c5opts) 5 =
        [seqDoc 5, seqDoc 7, seqDoc 9]) :=
  ⟨by decide, c5_seq_exclusive_bounds cstore 5 5 c5opts (by decide)⟩

theorem next_array (store : List Doc) (e : DocEnumerator) (h : 0 < e.docIDs.length) :
    next store e = nextFromArray store e := by
  rw [next, if_pos h]

theorem nextFromArrayCore_notFound (fetch : List Nat → FdbStatus × Option Doc)
    (e : DocEnumerator) (h : e.curDocIndex < e.docIDs.length) (od : Option Doc)
    (hf : fetch (e.docIDs.getD e.curDocIndex []) = (.keyNotFound, od)) :
    nextFromArrayCore fetch e =
      .ok ({ e with curDocIndex := e.curDocIndex + 1, doc := some (placeholderDoc (e.docIDs.getD e.curDocIndex [])) }, true) := by
  simp only [nextFromArrayCore, if_pos h, hf, if_true]

theorem nextFromArrayCore_found (fetch : List Nat → FdbStatus × Option Doc)
    (e : DocEnumerator) (h : e.curDocIndex < e.docIDs.length) (od : Option Doc)
    (hf : fetch (e.docIDs.getD e.curDocIndex []) = (.success, od)) :
    nextFromArrayCore fetch e =
      .ok ({ e with curDocIndex := e.curDocIndex + 1, doc := od }, true) := by
  simp only [nextFromArrayCore, if_pos h, hf, if_true,
    if_neg (show ¬ (FdbStatus.success = FdbStatus.keyNotFound) from by decide)]

theorem nextFromArrayCore_fatal (fetch : List Nat → FdbStatus × Option Doc)
    (e : DocEnumerator) (h : e.curDocIndex < e.docIDs.length) (st : FdbStatus)
    (od : Option Doc) (hf : fetch (e.docIDs.getD e.curDocIndex []) = (st, od))
    (h1 : st ≠ .keyNotFound) (h2 : st ≠ .success) :
    nextFromArrayCore fetch e = .error st := by
  simp only [nextFromArrayCore, if_pos h, hf, if_neg h1, if_neg h2]

theorem nextFromArrayCore_end (fetch : List Nat → FdbStatus × Option Doc)
    (e : DocEnumerator) (h : e.docIDs.length ≤ e.curDocIndex) :
    nextFromArrayCore fetch e = .ok (closeEnum e, false) := by
  simp only [nextFromArrayCore, if_neg (show ¬ e.curDocIndex < e.docIDs.length from by omega)]

theorem nextFromArray_step (store : List Doc) (e : DocEnumerator)
    (h : e.curDocIndex < e.docIDs.length) :
    nextFromArray store e =
      .ok ({ e with curDocIndex := e.curDocIndex + 1, doc := some (arrayFetch store e.options.metaOnly (e.docIDs.getD e.curDocIndex [])) }, true) := by
  rw [nextFromArray]
  rcases hfind : store.find? (fun d => d.key == e.docIDs.getD e.curDocIndex []) with _ | d
  · rw [nextFromArrayCore_notFound _ e h none (by rw [fdb_get, hfind])]
    rw [show arrayFetch store e.options.metaOnly (e.docIDs.getD e.curDocIndex []) = placeholderDoc (e.docIDs.getD e.curDocIndex []) from by rw [arrayFetch, fdb_get, hfind]]
  · rw [nextFromArrayCore_found _ e h (some (fetchDoc e.options.metaOnly d)) (by rw [fdb_get, hfind])]
    rw [show arrayFetch store e.options.metaOnly (e.docIDs.getD e.curDocIndex []) = fetchDoc e.options.metaOnly d from by rw [arrayFetch, fdb_get, hfind]]

theorem next_array_step (store : List Doc) (e : DocEnumerator)
    (h : e.curDocIndex < e.docIDs.length) :
    next store e =
      .ok ({ e with curDocIndex := e.curDocIndex + 1, doc := some (arrayFetch store e.options.metaOnly (e.docIDs.getD e.curDocIndex [])) }, true) := by
  rw [next_array store e (by omega), nextFromArray_step store e h]

theorem next_array_end (store : List Doc) (e : DocEnumerator)
    (h0 : 0 < e.docIDs.length) (h : e.docIDs.length ≤ e.curDocIndex) :
    next store e = .ok (closeEnum e, false) := by
  rw [next_array store e h0, nextFromArray, nextFromArrayCore_end _ e h]

/-- C2 (amended): for an enumerator constructed in ID-list mode over
document IDs `[a, b, c]` with skip 1, unlimited limit and descending true,
successive `next` calls yield exactly the documents for ID `c` then ID
`b`, each fetched by exact key lookup, and the third call reports
end-of-sequence: skip discards leading IDs, then limit truncates, and
only then is the list reversed for descending, all at construction
time. -/
theorem c2_list_mode (store : List Doc) (a b c : List Nat) (fuel : Nat) (hf : 3 ≤ fuel) :
    enumAll store (mkArrayEnum [a, b, c] { kDefault with skip := 1, descending := true }) fuel =
      [arrayFetch store false c, arrayFetch store false b] := by
  obtain ⟨f, rfl⟩ : ∃ f, fuel = f + 3 := ⟨fuel - 3, by omega⟩
  have hE : mkArrayEnum [a, b, c] { kDefault with skip := 1, descending := true } =
      { iterator := none, options := { kDefault with skip := 1, descending := true }, docIDs := [c, b], curDocIndex := 0, doc := none, skipStep := true } := rfl
  rw [hE]
  have h1 : next store ({ iterator := none, options := { kDefault with skip := 1, descending := true }, docIDs := [c, b], curDocIndex := 0, doc := none, skipStep := true } : DocEnumerator) =
      .ok (({ iterator := none, options := { kDefault with skip := 1, descending := true }, docIDs := [c, b], curDocIndex := 1, doc := some (arrayFetch store false c), skipStep := true } : DocEnumerator), true) :=
    next_array_step store _ (by simp)
  rw [show f + 3 = (f + 2) + 1 from rfl, enumAll_cons store _ (f + 2) _ _ h1 rfl]
  have h2 : next store ({ iterator := none, options := { kDefault with skip := 1, descending := true }, docIDs := [c, b], curDocIndex := 1, doc := some (arrayFetch store false c), skipStep := true } : DocEnumerator) =
      .ok (({ iterator := none, options := { kDefault with skip := 1, descending := true }, docIDs := [c, b], curDocIndex := 2, doc := some (arrayFetch store false b), skipStep := true } : DocEnumerator), true) :=
    next_array_step store _ (by simp)
  rw [show f + 2 = (f + 1) + 1 from rfl, enumAll_cons store _ (f + 1) _ _ h2 rfl]
  have h3 : next store ({ iterator := none, options := { kDefault with skip := 1, descending := true }, docIDs := [c, b], curDocIndex := 2, doc := some (arrayFetch store false b), skipStep := true } : DocEnumerator) =
      .ok (closeEnum { iterator := none, options := { kDefault with skip := 1, descending := true }, docIDs := [c, b], curDocIndex := 2, doc := some (arrayFetch store false b), skipStep := true }, false) :=
    next_array_end store _ (by simp) (by simp)
  have h4 : enumAll store ({ iterator := none, options := { kDefault with skip := 1, descending := true }, docIDs := [c, b], curDocIndex := 2, doc := some (arrayFetch store false b), skipStep := true } : DocEnumerator) (f + 1) = [] :=
    enumAll_stop store _ f _ h3
  rw [h4]

theorem c2_list_mode_witness :
    (3 ≤ 5) ∧
    enumAll cstore (mkArrayEnum [[1], [2], [3]] { kDefault with skip := 1, descending := true }) 5 =
      [arrayFetch cstore false [3], arrayFetch cstore false [2]] :=
  ⟨by decide, c2_list_mode cstore [1] [2] [3] 5 (by decide)⟩

theorem c2_counterexample :
    enumAll cstore (mkArrayEnum [[1], [2], [3]] { kDefault with skip := 1, descending := true }) 5 ≠
      [arrayFetch cstore false [2], arrayFetch cstore false [1]] := by
  decide

/-- C8: in ID-list mode, when the exact-key fetch for the current ID
reports key-not-found, `next` still returns true and the enumerator holds
a placeholder document containing only that ID; any fetch status other
than success or key-not-found is raised to the caller as a fatal error. -/
theorem c8_list_fetch_status (store : List Doc) (e : DocEnumerator)
    (h : e.curDocIndex < e.docIDs.length)
    (hmiss : store.find? (fun d => d.key == e.docIDs.getD e.curDocIndex []) = none) :
    (next store e =
      .ok ({ e with curDocIndex := e.curDocIndex + 1, doc := some (placeholderDoc (e.docIDs.getD e.curDocIndex [])) }, true))
    ∧ ∀ (fetch : List Nat → FdbStatus × Option Doc) (st : FdbStatus) (od : Option Doc),
        fetch (e.docIDs.getD e.curDocIndex []) = (st, od) →
        st ≠ .success → st ≠ .keyNotFound →
        nextFromArrayCore fetch e = .error st := by
  constructor
  · rw [next_array store e (by omega), nextFromArray,
        nextFromArrayCore_notFound _ e h none (by rw [fdb_get, hmiss])]
  · intro fetch st od hfet h1 h2
    exact nextFromArrayCore_fatal fetch e h st od hfet h2 h1

theorem c8_list_fetch_status_witness :
    ((mkArrayEnum [[9]] kDefault).curDocIndex < (mkArrayEnum [[9]] kDefault).docIDs.length) ∧
    (cstore.find? (fun d => d.key == (mkArrayEnum [[9]] kDefault).docIDs.getD (mkArrayEnum [[9]] kDefault).curDocIndex []) = none) ∧
    ((next cstore (mkArrayEnum [[9]] kDefault) =
      .ok ({ mkArrayEnum [[9]] kDefault with curDocIndex := (mkArrayEnum [[9]] kDefault).curDocIndex + 1, doc := some (placeholderDoc ((mkArrayEnum [[9]] kDefault).docIDs.getD (mkArrayEnum [[9]] kDefault).curDocIndex [])) }, true))
    ∧ ∀ (fetch : List Nat → FdbStatus × Option Doc) (st : FdbStatus) (od : Option Doc),
        fetch ((mkArrayEnum [[9]] kDefault).docIDs.getD (mkArrayEnum [[9]] kDefault).curDocIndex []) = (st, od) →
        st ≠ .success → st ≠ .keyNotFound →
        nextFromArrayCore fetch (mkArrayEnum [[9]] kDefault) = .error st) :=
  ⟨by decide, by decide, c8_list_fetch_status cstore (mkArrayEnum [[9]] kDefault) (by decide) (by decide)⟩

/-- C9: in key-range mode, a start or end key of length zero is
normalized at construction to a null bound (before the exclusivity
normalization and the descending swap are applied), so an empty key
denotes an unbounded end of the range rather than the empty key itself:
with both keys empty and inclusive the cursor ranges over the whole
store, filtered only by deleted-document visibility. -/
theorem c9_empty_key_null_bound (maxLen : Nat) (store : List Doc)
    (startKey endKey : List Nat) (o : Options) :
    (endKey = [] → o.inclusiveEnd = true →
      (if o.descending then (keyBounds maxLen startKey endKey o).1
       else (keyBounds maxLen startKey endKey o).2) = none)
    ∧ (startKey = [] → o.inclusiveStart = true →
      (if o.descending then (keyBounds maxLen startKey endKey o).2
       else (keyBounds maxLen startKey endKey o).1) = none)
    ∧ (startKey = [] → endKey = [] → o.inclusiveStart = true → o.inclusiveEnd = true →
      keyRangeDocs maxLen store startKey endKey o =
        store.filter (fun d => o.includeDeleted || !d.deleted)) := by
  obtain ⟨sk, lim, dsc, is1, ie1, idel, mo⟩ := o
  refine ⟨?_, ?_, ?_⟩
  · intro h1 h2
    dsimp only at h2
    subst h1
    subst h2
    cases dsc <;> rfl
  · intro h1 h2
    dsimp only at h2
    subst h1
    subst h2
    cases dsc <;> rfl
  · intro h1 h2 h3 h4
    dsimp only at h3 h4
    subst h1
    subst h2
    subst h3
    subst h4
    cases dsc <;> rfl

theorem c9_empty_key_null_bound_witness :
    (([] : List Nat) = []) ∧ (kDefault.inclusiveEnd = true) ∧
    ((if kDefault.descending then (keyBounds 4 [] [] kDefault).1
      else (keyBounds 4 [] [] kDefault).2) = none) ∧
    (keyRangeDocs 4 cstore [] [] kDefault =
      cstore.filter (fun d => kDefault.includeDeleted || !d.deleted)) :=
  ⟨rfl, rfl, (c9_empty_key_null_bound 4 cstore [] [] kDefault).1 rfl rfl,
   (c9_empty_key_null_bound 4 cstore [] [] kDefault).2.2 rfl rfl rfl rfl⟩

theorem seekE_noIterator (k : List Nat) (e : DocEnumerator) (h : e.iterator = none) :
    seekE k e = e := by
  rw [seekE, h]

/-- C10: calling seek on an ID-list-mode enumerator, which never has an
underlying cursor, leaves the enumerator entirely unchanged: it does not
free the held document, does not change the list index, and does not
affect the results of any subsequent `next` call. -/
theorem c10_seek_list_noop (docIDs : List (List Nat)) (o : Options) (k : List Nat) :
    seekE k (mkArrayEnum docIDs o) = mkArrayEnum docIDs o
    ∧ (∀ e : DocEnumerator, e.iterator = none → seekE k e = e)
    ∧ ∀ (store : List Doc) (fuel : Nat),
        enumAll store (seekE k (mkArrayEnum docIDs o)) fuel =
          enumAll store (mkArrayEnum docIDs o) fuel := by
  have h1 : seekE k (mkArrayEnum docIDs o) = mkArrayEnum docIDs o :=
    seekE_noIterator k _ rfl
  exact ⟨h1, fun e he => seekE_noIterator k e he, fun store fuel => by rw [h1]⟩

theorem c10_seek_list_noop_witness :
    seekE [7] (mkArrayEnum [[1], [2]] kDefault) = mkArrayEnum [[1], [2]] kDefault :=
  (c10_seek_list_noop [[1], [2]] kDefault [7]).1

/-- C7: resource trace of the lifecycle operations. Double close performs
no operation the second time, destroying a moved-from enumerator performs
no operation, and after move-assignment onto an enumerator that owned an
open cursor (handle 1) and held a document (buffer 10) followed by
destruction of both objects, cursor 1 is closed zero times and document
10 is freed zero times — they leak — while the moved handle 2 and
document 20 are released exactly once. -/
theorem c7_lifecycle_trace :
    ((hClose (hClose ⟨some 3, some 30⟩).1).2 = [])
    ∧ ((hDestruct (hMoveCtor ⟨some 4, some 40⟩).2).2 = [])
    ∧ (((hMoveAssign ⟨some 1, some 10⟩ ⟨some 2, some 20⟩).2.2 ++
        (hDestruct (hMoveAssign ⟨some 1, some 10⟩ ⟨some 2, some 20⟩).1).2 ++
        (hDestruct (hMoveAssign ⟨some 1, some 10⟩ ⟨some 2, some 20⟩).2.1).2).count
          (ResOp.closeIteratorOp 1) = 0
    ∧ ((hMoveAssign ⟨some 1, some 10⟩ ⟨some 2, some 20⟩).2.2 ++
        (hDestruct (hMoveAssign ⟨some 1, some 10⟩ ⟨some 2, some 20⟩).1).2 ++
        (hDestruct (hMoveAssign ⟨some 1, some 10⟩ ⟨some 2, some 20⟩).2.1).2).count
          (ResOp.freeDocOp 10) = 0
    ∧ ((hMoveAssign ⟨some 1, some 10⟩ ⟨some 2, some 20⟩).2.2 ++
        (hDestruct (hMoveAssign ⟨some 1, some 10⟩ ⟨some 2, some 20⟩).1).2 ++
        (hDestruct (hMoveAssign ⟨some 1, some 10⟩ ⟨some 2, some 20⟩).2.1).2).count
          (ResOp.closeIteratorOp 2) = 1
    ∧ ((hMoveAssign ⟨some 1, some 10⟩ ⟨some 2, some 20⟩).2.2 ++
        (hDestruct (hMoveAssign ⟨some 1, some 10⟩ ⟨some 2, some 20⟩).1).2 ++
        (hDestruct (hMoveAssign ⟨some 1, some 10⟩ ⟨some 2, some 20⟩).2.1).2).count
          (ResOp.freeDocOp 20) = 1) := by
  decide

theorem findFirstIdx_lt (p : Doc → Bool) :
    ∀ (l : List Doc) (i : Nat), findFirstIdx p l = some i → i < l.length := by
  intro l
  induction l with
  | nil => intro i h; simp [findFirstIdx] at h
  | cons a rest ih =>
    intro i h
    by_cases hp : p a
    · rw [findFirstIdx, if_pos hp] at h
      cases h
      simp
    · rw [findFirstIdx, if_neg hp] at h
      rcases hr : findFirstIdx p rest with _ | j
      · rw [hr] at h
        simp at h
      · rw [hr] at h
        simp at h
        have := ih j hr
        simp [List.length_cons]
        omega

theorem findFirstIdx_some_getD (p : Doc → Bool) :
    ∀ (l : List Doc) (i : Nat), findFirstIdx p l = some i →
      l.find? p = some (l.getD i dummyDoc) := by
  intro l
  induction l with
  | nil => intro i h; simp [findFirstIdx] at h
  | cons a rest ih =>
    intro i h
    by_cases hp : p a
    · rw [findFirstIdx, if_pos hp] at h
      cases h
      simp [List.find?, hp]
    · rw [findFirstIdx, if_neg hp] at h
      rcases hr : findFirstIdx p rest with _ | j
      · rw [hr] at h
        simp at h
      · rw [hr] at h
        simp at h
        subst h
        have := ih j hr
        simp only [List.find?, hp]
        rw [this]
        rfl

theorem findFirstIdx_none_find? (p : Doc → Bool) :
    ∀ (l : List Doc), findFirstIdx p l = none → l.find? p = none := by
  intro l
  induction l with
  | nil => intro h; rfl
  | cons a rest ih =>
    intro h
    by_cases hp : p a
    · rw [findFirstIdx, if_pos hp] at h
      simp at h
    · rw [findFirstIdx, if_neg hp] at h
      rcases hr : findFirstIdx p rest with _ | j
      · simp only [List.find?, hp]
        exact ih hr
      · rw [hr] at h
        simp at h

theorem getD_reverse {D : List Doc} {j : Nat} (h : j < D.length) :
    D.reverse.getD j dummyDoc = D.getD (D.length - 1 - j) dummyDoc := by
  rw [List.getD_eq_getElem?_getD, List.getD_eq_getElem?_getD, List.getElem?_reverse h]

theorem seekPos_false_eq (D : List Doc) (k : List Nat) :
    seekPos D k false = findFirstIdx (fun d => leKey k d.key) D := rfl

theorem seekPos_true_eq (D : List Doc) (k : List Nat) :
    seekPos D k true =
      match findFirstIdx (fun d => leKey d.key k) D.reverse with
      | some j => some (D.length - 1 - j)
      | none => none := rfl

theorem seekPos_higher_char (D : List Doc) (k : List Nat) (dd : Doc)
    (h : D.find? (fun d => leKey k d.key) = some dd) :
    ∃ i, seekPos D k false = some i ∧ i < D.length ∧ D.getD i dummyDoc = dd := by
  rcases hr : findFirstIdx (fun d => leKey k d.key) D with _ | i
  · rw [findFirstIdx_none_find? _ D hr] at h
    cases h
  · refine ⟨i, ?_, findFirstIdx_lt _ D i hr, ?_⟩
    · rw [seekPos_false_eq, hr]
    · have := findFirstIdx_some_getD _ D i hr
      rw [this] at h
      cases h
      rfl

theorem seekPos_lower_char (D : List Doc) (k : List Nat) (dd : Doc)
    (h : D.reverse.find? (fun d => leKey d.key k) = some dd) :
    ∃ i, seekPos D k true = some i ∧ i < D.length ∧ D.getD i dummyDoc = dd := by
  rcases hr : findFirstIdx (fun d => leKey d.key k) D.reverse with _ | j
  · rw [findFirstIdx_none_find? _ D.reverse hr] at h
    cases h
  · have hj : j < D.length := by
      have := findFirstIdx_lt _ D.reverse j hr
      rwa [List.length_reverse] at this
    refine ⟨D.length - 1 - j, ?_, by omega, ?_⟩
    · rw [seekPos_true_eq, hr]
    · have := findFirstIdx_some_getD _ D.reverse j hr
      rw [this] at h
      cases h
      exact (getD_reverse hj).symm

theorem seekPos_higher_none (D : List Doc) (k : List Nat)
    (h : D.find? (fun d => leKey k d.key) = none) :
    seekPos D k false = none := by
  rcases hr : findFirstIdx (fun d => leKey k d.key) D with _ | i
  · rw [seekPos_false_eq, hr]
  · rw [findFirstIdx_some_getD _ D i hr] at h
    cases h

theorem seekPos_lower_none (D : List Doc) (k : List Nat)
    (h : D.reverse.find? (fun d => leKey d.key k) = none) :
    seekPos D k true = none := by
  rcases hr : findFirstIdx (fun d => leKey d.key k) D.reverse with _ | j
  · rw [seekPos_true_eq, hr]
  · rw [findFirstIdx_some_getD _ D.reverse j hr] at h
    cases h

theorem seekE_rangeState_some (D : List Doc) (o : Options) (p : Nat) (ss : Bool)
    (d : Option Doc) (k : List Nat) (i : Nat)
    (hpos : seekPos D k o.descending = some i) :
    seekE k (rangeState D o p ss d) = rangeState D o i true none := by
  dsimp only [seekE, rangeState, fdb_iterator_seek]
  rw [hpos]

theorem seekE_rangeState_none (D : List Doc) (o : Options) (p : Nat) (ss : Bool)
    (d : Option Doc) (k : List Nat)
    (hpos : seekPos D k o.descending = none) :
    seekE k (rangeState D o p ss d) =
      { iterator := none, options := o, docIDs := [], curDocIndex := 0, doc := none, skipStep := ss } := by
  dsimp only [seekE, rangeState, fdb_iterator_seek]
  rw [hpos]
  rfl

/-- C6 (amended): for an open range-mode enumerator whose remaining skip
is zero and whose remaining limit is nonzero, seek(key) repositions the
cursor so that the next document fetched is the one whose key is the
first at-or-after the target (ascending) or at-or-before the target
(descending); if no such position exists the enumerator is closed and
subsequent `next` calls report end-of-sequence; seek on an already-closed
enumerator is a no-op. -/
theorem c6_seek_reposition (D : List Doc) (o : Options) (p : Nat) (ss : Bool)
    (d : Option Doc) (k : List Nat)
    (hskip : o.skip = 0) (hl : o.limit ≠ 0) :
    (∀ e : DocEnumerator, e.iterator = none → seekE k e = e)
    ∧ (∀ dd : Doc,
        (if o.descending then D.reverse.find? (fun x => leKey x.key k)
         else D.find? (fun x => leKey k x.key)) = some dd →
        ∀ st : List Doc, ∃ e2, next st (seekE k (rangeState D o p ss d)) = .ok (e2, true)
          ∧ e2.doc = some (fetchDoc o.metaOnly dd))
    ∧ ((if o.descending then D.reverse.find? (fun x => leKey x.key k)
        else D.find? (fun x => leKey k x.key)) = none →
        seekE k (rangeState D o p ss d) =
          { iterator := none, options := o, docIDs := [], curDocIndex := 0, doc := none, skipStep := ss }
        ∧ ∀ st : List Doc,
            next st ({ iterator := none, options := o, docIDs := [], curDocIndex := 0, doc := none, skipStep := ss } : DocEnumerator) =
              .ok ({ iterator := none, options := o, docIDs := [], curDocIndex := 0, doc := none, skipStep := ss }, false)) := by
  refine ⟨fun e he => seekE_noIterator k e he, ?_, ?_⟩
  · intro dd hfind st
    by_cases hdesc : o.descending = true
    · rw [if_pos hdesc] at hfind
      obtain ⟨i, hpos, hi, hgd⟩ := seekPos_lower_char D k dd hfind
      have hpos2 : seekPos D k o.descending = some i := by
        rw [hdesc]
        exact hpos
      rw [seekE_rangeState_some D o p ss d k i hpos2]
      have hy := next_range_yield_desc st D o i true none hdesc hl
        (by rw [hskip, stepOff_true]; omega) hi
      refine ⟨_, hy, ?_⟩
      show some (fetchDoc o.metaOnly (D.getD (i - o.skip - stepOff true) dummyDoc)) =
        some (fetchDoc o.metaOnly dd)
      rw [hskip, stepOff_true, show i - 0 - 0 = i from by omega, hgd]
    · rw [Bool.not_eq_true] at hdesc
      rw [if_neg (show ¬ (o.descending = true) from by rw [hdesc]; simp)] at hfind
      obtain ⟨i, hpos, hi, hgd⟩ := seekPos_higher_char D k dd hfind
      have hpos2 : seekPos D k o.descending = some i := by
        rw [hdesc]
        exact hpos
      rw [seekE_rangeState_some D o p ss d k i hpos2]
      have hy := next_range_yield_asc st D o i true none hdesc hl
        (by rw [hskip, stepOff_true]; omega)
      refine ⟨_, hy, ?_⟩
      show some (fetchDoc o.metaOnly (D.getD (i + o.skip + stepOff true) dummyDoc)) =
        some (fetchDoc o.metaOnly dd)
      rw [hskip, stepOff_true, show i + 0 + 0 = i from by omega, hgd]
  · intro hfind
    have hpos2 : seekPos D k o.descending = none := by
      by_cases hdesc : o.descending = true
      · rw [if_pos hdesc] at hfind
        rw [hdesc]
        exact seekPos_lower_none D k hfind
      · rw [Bool.not_eq_true] at hdesc
        rw [if_neg (show ¬ (o.descending = true) from by rw [hdesc]; simp)] at hfind
        rw [hdesc]
        exact seekPos_higher_none D k hfind
    exact ⟨seekE_rangeState_none D o p ss d k hpos2, fun st => next_noIterator st _ rfl rfl⟩

theorem c6_seek_reposition_witness :
    (kDefault.skip = 0) ∧ (kDefault.limit ≠ 0) ∧
    (((if kDefault.descending then cstore.reverse.find? (fun x => leKey x.key [2])
       else cstore.find? (fun x => leKey [2] x.key)) = some (seqDoc 2)) ∧
     (∃ e2, next cstore (seekE [2] (rangeState cstore kDefault 0 true none)) = .ok (e2, true)
        ∧ e2.doc = some (fetchDoc kDefault.metaOnly (seqDoc 2)))) :=
  ⟨rfl, by decide, by decide,
   (c6_seek_reposition cstore kDefault 0 true none [2] rfl (by decide)).2.1 (seqDoc 2)
     (by decide) cstore⟩

theorem c6_counterexample :
    nextDoc cstore (seekE [1]
        (mkKeyRange FDB_MAX_KEYLEN cstore [] [] { kDefault with skip := 1 })) ≠
      (cstore.find? (fun x => leKey [1] x.key)).map (fetchDoc false) := by
  decide

theorem ltKey_append_same (P xs ys : List Nat) :
    ltKey (P ++ xs) (P ++ ys) = ltKey xs ys := by
  induction P with
  | nil => rfl
  | cons p P2 ih => simp [List.cons_append, ltKey, Nat.lt_irrefl, ih]

theorem lt_self_append_zero (K : List Nat) : ltKey K (K ++ [0]) = true := by
  have h := ltKey_append_same K [] [0]
  rw [List.append_nil] at h
  rw [h]
  rfl

theorem ltKey_nil_right (xs : List Nat) : ltKey xs [] = false := by
  cases xs <;> rfl

theorem no_between_succ :
    ∀ (K K2 : List Nat), ltKey K K2 = true → ltKey K2 (K ++ [0]) = true → False := by
  intro K
  induction K with
  | nil =>
    intro K2 h1 h2
    cases K2 with
    | nil => simp [ltKey] at h1
    | cons c cs =>
      rw [List.nil_append, ltKey, if_neg (Nat.not_lt_zero c)] at h2
      by_cases h0 : 0 < c
      · rw [if_pos h0] at h2
        cases h2
      · rw [if_neg h0] at h2
        rw [ltKey_nil_right] at h2
        cases h2
  | cons a as ih =>
    intro K2 h1 h2
    cases K2 with
    | nil => rw [ltKey_nil_right] at h1; cases h1
    | cons c cs =>
      rw [List.cons_append] at h2
      rcases Nat.lt_trichotomy a c with hac | hac | hac
      · rw [ltKey, if_neg (by omega), if_pos hac] at h2
        cases h2
      · subst hac
        rw [ltKey, if_neg (Nat.lt_irrefl a), if_neg (Nat.lt_irrefl a)] at h1 h2
        exact ih cs h1 h2
      · rw [ltKey, if_neg (by omega), if_pos hac] at h1
        cases h1

theorem ff_not_lt :
    ∀ (n : Nat) (cs : List Nat), cs.length ≤ n → (∀ x ∈ cs, x ≤ 255) →
      ltKey (List.replicate n 255) cs = true → False := by
  intro n
  induction n with
  | zero =>
    intro cs h1 h2 h3
    cases cs with
    | nil => cases h3
    | cons c cs2 => simp at h1
  | succ n ih =>
    intro cs h1 h2 h3
    cases cs with
    | nil =>
      rw [List.replicate_succ, ltKey_nil_right] at h3
      cases h3
    | cons c cs2 =>
      have hc : c ≤ 255 := h2 c (by simp)
      rw [List.replicate_succ, ltKey] at h3
      by_cases h255 : 255 < c
      · omega
      · rw [if_neg h255] at h3
        by_cases hlt : c < 255
        · rw [if_pos hlt] at h3
          cases h3
        · rw [if_neg hlt] at h3
          exact ih cs2 (by simp at h1; omega) (fun x hx => h2 x (by simp [hx])) h3

theorem prevKey_eq (maxLen : Nat) (P : List Nat) (b : Nat) (hb : b ≠ 0) :
    prevKey maxLen (P ++ [b]) =
      P ++ (b - 1) :: List.replicate (maxLen - (P.length + 1)) 255 := by
  rw [prevKey]
  have h1 : (P ++ [b]).reverse = b :: P.reverse := by simp
  rw [h1, decAux, if_neg hb]
  have h2 : ((b - 1) :: P.reverse).reverse = P ++ [b - 1] := by simp
  rw [h2]
  have h3 : (P ++ [b]).length = P.length + 1 := by simp
  rw [h3, List.append_assoc]
  rfl

theorem no_between_pred :
    ∀ (P : List Nat) (b n : Nat), 1 ≤ b → ∀ (K2 : List Nat),
      K2.length ≤ P.length + 1 + n → (∀ x ∈ K2, x ≤ 255) →
      ltKey (P ++ (b - 1) :: List.replicate n 255) K2 = true →
      ltKey K2 (P ++ [b]) = true → False := by
  intro P
  induction P with
  | nil =>
    intro b n hb K2 hlen hmem h1 h2
    cases K2 with
    | nil => rw [List.nil_append, ltKey_nil_right] at h1; cases h1
    | cons c cs =>
      rw [List.nil_append, ltKey] at h2
      have hcb : c < b := by
        by_cases hlt : c < b
        · exact hlt
        · rw [if_neg hlt] at h2
          by_cases hgt : b < c
          · rw [if_pos hgt] at h2
            cases h2
          · rw [if_neg hgt, ltKey_nil_right] at h2
            cases h2
      rw [List.nil_append, ltKey, if_neg (by omega : ¬ b - 1 < c)] at h1
      by_cases hlt1 : c < b - 1
      · rw [if_pos hlt1] at h1
        cases h1
      · rw [if_neg hlt1] at h1
        exact ff_not_lt n cs (by simp at hlen; omega) (fun x hx => hmem x (by simp [hx])) h1
  | cons q P2 ih =>
    intro b n hb K2 hlen hmem h1 h2
    cases K2 with
    | nil => rw [List.cons_append, ltKey_nil_right] at h1; cases h1
    | cons c cs =>
      rw [List.cons_append] at h1 h2
      rcases Nat.lt_trichotomy q c with hqc | hqc | hqc
      · rw [ltKey, if_neg (by omega), if_pos hqc] at h2
        cases h2
      · subst hqc
        rw [ltKey, if_neg (Nat.lt_irrefl q), if_neg (Nat.lt_irrefl q)] at h1 h2
        exact ih b n hb cs (by simp at hlen; omega)
          (fun x hx => hmem x (by simp [hx])) h1 h2
      · rw [ltKey, if_neg (by omega), if_pos hqc] at h1
        cases h1

/-- C3: For every key K strictly shorter than the maximum key length, the
successor transform (nextKey, used for an exclusive minimum bound) yields a key
strictly greater than K with no key strictly between K and nextKey K under the
memcmp-style order; the predecessor transform (prevKey, used for an exclusive
maximum bound) yields a key strictly less than K with no valid key (length at
most the ceiling, bytes at most 255) strictly between prevKey K and K —
provided K ends in a nonzero byte. (For K ending in 0x00 the predecessor half
fails; see the counterexample.) -/
theorem c3_succ_pred (maxLen : Nat) (K : List Nat) (hlen : K.length < maxLen) :
    (ltKey K (nextKey maxLen K) = true ∧
      ∀ K2, ltKey K K2 = true → ltKey K2 (nextKey maxLen K) = true → False) ∧
    (∀ (P : List Nat) (b : Nat), K = P ++ [b] → 1 ≤ b →
      ltKey (prevKey maxLen K) K = true ∧
      ∀ K2, K2.length ≤ maxLen → (∀ x ∈ K2, x ≤ 255) →
        ltKey (prevKey maxLen K) K2 = true → ltKey K2 K = true → False) := by
  have hnext : nextKey maxLen K = K ++ [0] := by
    rw [nextKey, if_pos hlen]
  constructor
  · constructor
    · rw [hnext]
      exact lt_self_append_zero K
    · intro K2 h1 h2
      rw [hnext] at h2
      exact no_between_succ K K2 h1 h2
  · intro P b hK hb
    subst hK
    have hpk := prevKey_eq maxLen P b (by omega)
    constructor
    · rw [hpk, ltKey_append_same, ltKey, if_pos (show b - 1 < b by omega)]
    · intro K2 hl2 hm2 h1 h2
      rw [hpk] at h1
      have hPlen : P.length + 1 < maxLen := by
        have := hlen
        simp at this
        omega
      exact no_between_pred P b (maxLen - (P.length + 1)) hb K2 (by omega) hm2 h1 h2

/-- C3 counterexample: for the key [0x00] (which is shorter than the maximum
key length), the predecessor transform does NOT produce a smaller key: prevKey
turns the trailing zero into 0xFF and pads with 0xFF bytes, giving a key
strictly greater than [0x00]. -/
theorem c3_counterexample :
    ltKey (prevKey FDB_MAX_KEYLEN [0]) [0] = false ∧
    ltKey [0] (prevKey FDB_MAX_KEYLEN [0]) = true := by
  constructor <;> rfl

theorem c3_succ_pred_witness :
    ([7] : List Nat).length < 4 ∧
    ((ltKey [7] (nextKey 4 [7]) = true ∧
        ∀ K2, ltKey [7] K2 = true → ltKey K2 (nextKey 4 [7]) = true → False) ∧
      (∀ (P : List Nat) (b : Nat), ([7] : List Nat) = P ++ [b] → 1 ≤ b →
        ltKey (prevKey 4 [7]) [7] = true ∧
        ∀ K2, K2.length ≤ 4 → (∀ x ∈ K2, x ≤ 255) →
          ltKey (prevKey 4 [7]) K2 = true → ltKey K2 [7] = true → False)) :=
  ⟨by decide, c3_succ_pred 4 [7] (by decide)⟩
